import Mathlib

/-!
Verification of the app_hub process supervisor (`run.py`, `regex.py`).

We shallowly embed the repository's string-processing, process-matching and
orchestration logic over `List Char` (called `Str` below).  External
boundaries (the OS process table, signal delivery, wall-clock time) are
modelled as explicit environment parameters; fallible Python code (functions
that can raise) is embedded as `Option`-returning functions, `none` standing
for an uncaught exception.
-/

namespace AppHub

/-- Strings are modelled as lists of characters. -/
abbrev Str := List Char

/-- Conversion from Lean string literals. -/
def str (s : String) : Str := s.toList

/-! ### shlex.split (POSIX mode, whitespace_split), as used by `split_commandline` -/

/-- The whitespace characters of `shlex` (`shlex.whitespace`). -/
def isShlexWs (c : Char) : Bool :=
  if c = ' ' then true else if c = '\t' then true
  else if c = '\r' then true else if c = '\n' then true else false

/-- Lexer states of the POSIX `shlex` state machine.  The "between tokens"
state is the `word` state with an empty token and `quoted = false`. -/
inductive ShState where
  | word | squote | dquote | escWord | escDquote
deriving DecidableEq

/-- One pass of the POSIX `shlex` lexer: `input` remaining characters,
`st` current state, `tok` the token accumulated so far, `q` whether the
current token contains a quoted section, `acc` tokens already produced.
`none` models the `ValueError` raised on an unclosed quote or a trailing
escape character. -/
def shlexRun : Str → ShState → Str → Bool → List Str → Option (List Str)
  | [], .word, tok, q, acc =>
      if tok ≠ [] ∨ q = true then some (acc ++ [tok]) else some acc
  | [], .squote, _, _, _ => none
  | [], .dquote, _, _, _ => none
  | [], .escWord, _, _, _ => none
  | [], .escDquote, _, _, _ => none
  | c :: rest, .word, tok, q, acc =>
      if isShlexWs c then
        if tok ≠ [] ∨ q = true then shlexRun rest .word [] false (acc ++ [tok])
        else shlexRun rest .word [] false acc
      else if c = '\'' then shlexRun rest .squote tok q acc
      else if c = '"' then shlexRun rest .dquote tok q acc
      else if c = '\\' then shlexRun rest .escWord tok q acc
      else shlexRun rest .word (tok ++ [c]) q acc
  | c :: rest, .squote, tok, _, acc =>
      if c = '\'' then shlexRun rest .word tok true acc
      else shlexRun rest .squote (tok ++ [c]) true acc
  | c :: rest, .dquote, tok, _, acc =>
      if c = '"' then shlexRun rest .word tok true acc
      else if c = '\\' then shlexRun rest .escDquote tok true acc
      else shlexRun rest .dquote (tok ++ [c]) true acc
  | c :: rest, .escWord, tok, q, acc => shlexRun rest .word (tok ++ [c]) q acc
  | c :: rest, .escDquote, tok, q, acc =>
      if c = '"' ∨ c = '\\' then shlexRun rest .dquote (tok ++ [c]) q acc
      else shlexRun rest .dquote (tok ++ ['\\', c]) q acc

/-- `shlex.split(s)` in POSIX mode with whitespace splitting. -/
def shlexSplit (s : Str) : Option (List Str) := shlexRun s .word [] false []

/-- `split_commandline` from `run.py`: tokenize, first token is the
executable, the rest are the arguments.  `none` models an exception: either
`shlex.split` raising `ValueError`, or `args[0]` raising `IndexError` when
the commandline tokenizes to zero tokens. -/
def split_commandline (s : Str) : Option (Str × List Str) :=
  match shlexSplit s with
  | none => none
  | some [] => none
  | some (x :: xs) => some (x, xs)

/-! ### Argument normalization (`clean_args` inside `has_suitable_commandline`) -/

/-- Whitespace stripped by Python's `str.strip()` (ASCII fragment). -/
def isPyWs (c : Char) : Bool :=
  if c = ' ' then true else if c = '\t' then true else if c = '\n' then true
  else if c = '\r' then true else if c = '\x0b' then true
  else if c = '\x0c' then true else false

/-- Python `str.strip()`. -/
def pyStrip (s : Str) : Str :=
  ((s.dropWhile isPyWs).reverse.dropWhile isPyWs).reverse

/-- Python `arg.replace("//", "/")`: one left-to-right, non-overlapping
replacement pass. -/
def replaceDslash : Str → Str
  | '/' :: '/' :: rest => '/' :: replaceDslash rest
  | c :: rest => c :: replaceDslash rest
  | [] => []

/-- Python `"//" in arg`. -/
def containsDslash : Str → Bool
  | '/' :: '/' :: _ => true
  | _ :: rest => containsDslash rest
  | [] => false

/-- The `while "//" in arg: arg = arg.replace("//", "/")` loop, with fuel.
Each taken iteration strictly shortens the string, so fuel equal to the
string's length is always sufficient. -/
def collapseLoop : Nat → Str → Str
  | 0, s => s
  | n + 1, s => if containsDslash s then collapseLoop n (replaceDslash s) else s

/-- Normalization of a single argument: strip surrounding whitespace, then
collapse doubled path separators. -/
def cleanArg (s : Str) : Str :=
  let t := pyStrip s
  collapseLoop t.length t

/-- `clean_args` from `has_suitable_commandline`: normalize every token. -/
def clean_args (args : List Str) : List Str := args.map cleanArg

/-! ### posixpath: `abspath`, `dirname`, `basename` as used by the matcher -/

/-- `posixpath.isabs`. -/
def isabs (s : Str) : Bool :=
  match s with
  | '/' :: _ => true
  | _ => false

/-- Python `s.startswith(p)`. -/
def startsWith : Str → Str → Bool
  | _, [] => true
  | [], _ :: _ => false
  | c :: s, d :: p => if c = d then startsWith s p else false

/-- Python `path.split('/')`. -/
def splitOnSlash : Str → List Str
  | [] => [[]]
  | '/' :: rest => [] :: splitOnSlash rest
  | c :: rest =>
      match splitOnSlash rest with
      | [] => [[c]]
      | t :: ts => (c :: t) :: ts

/-- `'/'.join(comps)`. -/
def joinSlash : List Str → Str
  | [] => []
  | [x] => x
  | x :: y :: xs => x ++ '/' :: joinSlash (y :: xs)

/-- `posixpath.normpath`. -/
def normpath (p : Str) : Str :=
  if p = [] then ['.']
  else
    let initialSlashes : Nat :=
      if startsWith p ['/'] then
        if startsWith p ['/', '/'] ∧ ¬ (startsWith p ['/', '/', '/'] = true) then 2 else 1
      else 0
    let comps := splitOnSlash p
    let newComps := comps.foldl (fun acc comp =>
      if comp = [] ∨ comp = ['.'] then acc
      else if comp ≠ ['.', '.'] ∨ (initialSlashes = 0 ∧ acc = []) ∨
              (acc ≠ [] ∧ acc.getLast? = some ['.', '.']) then acc ++ [comp]
      else acc.dropLast) []
    let res := List.replicate initialSlashes '/' ++ joinSlash newComps
    if res = [] then ['.'] else res

/-- `posixpath.join(cwd, p)` for the two-argument case used by `abspath`. -/
def pathJoin (cwd p : Str) : Str :=
  if startsWith p ['/'] then p
  else if cwd = [] ∨ cwd.getLast? = some '/' then cwd ++ p
  else cwd ++ '/' :: p

/-- `posixpath.abspath(p)`, with the current working directory made an
explicit parameter. -/
def abspath (cwd p : Str) : Str :=
  if isabs p then normpath p else normpath (pathJoin cwd p)

/-- `posixpath.basename`. -/
def basename (s : Str) : Str :=
  (s.reverse.takeWhile (fun c => c ≠ '/')).reverse

/-- `posixpath.dirname`. -/
def dirname (s : Str) : Str :=
  let head := (s.reverse.dropWhile (fun c => c ≠ '/')).reverse
  if head ≠ [] ∧ ¬ (head.all (fun c => c = '/') = true) then
    (head.reverse.dropWhile (fun c => c = '/')).reverse
  else head

/-! ### The Process Matcher: `has_suitable_commandline` -/

/-- `has_suitable_commandline` from `run.py`.  Decides whether a live
process (reported executable `process_executable` with argument vector
`process_args`) was created from the commandline `commandline`.  `none`
models the exception propagated out of `split_commandline`. -/
def has_suitable_commandline (cwd commandline process_executable : Str)
    (process_args : List Str) : Option Bool :=
  match split_commandline commandline with
  | none => none
  | some (cmdExe, cmdArgs0) =>
    let cmdArgs := clean_args cmdArgs0
    let procArgs := clean_args process_args
    if ('/' ∈ cmdExe) ∧ ('/' ∈ process_executable) ∧
        dirname (abspath cwd cmdExe) ≠ dirname (abspath cwd process_executable) then
      some false
    else
      let cmdBase := basename cmdExe
      let procBase := basename process_executable
      if (startsWith cmdBase procBase = true ∨ startsWith procBase cmdBase = true) ∧
          (∀ a ∈ cmdArgs, a ∈ procArgs) then
        some true
      else
        some false

/-! ### The CommandSpec Parser: `regex.py` -/

/-- The character class `[a-zA-Z0-9_]` of the user-prefix patterns, under
`re.IGNORECASE` with Unicode matching: per the documented Python `re`
semantics, `[a-z]`/`[A-Z]` with `IGNORECASE` also match the four
non-ASCII characters `İ` (U+0130), `ı` (U+0131), `ſ` (U+017F) and
`K` (U+212A, the Kelvin sign). -/
def isIdentChar (c : Char) : Bool :=
  c.isAlpha || c.isDigit || c = '_' ||
  c = '\u0130' || c = '\u0131' || c = '\u017F' || c = '\u212A'

/-- The four characters match the literal `USER` under `re.IGNORECASE`
with Unicode case folding: `U`/`u`, `S`/`s`/`ſ` (U+017F folds to `s`),
`E`/`e`, `R`/`r`. -/
def SpellsUSER (c1 c2 c3 c4 : Char) : Prop :=
  (c1 = 'U' ∨ c1 = 'u') ∧ (c2 = 'S' ∨ c2 = 's' ∨ c2 = '\u017F') ∧
  (c3 = 'E' ∨ c3 = 'e') ∧ (c4 = 'R' ∨ c4 = 'r')

instance (c1 c2 c3 c4 : Char) : Decidable (SpellsUSER c1 c2 c3 c4) := by
  unfold SpellsUSER; infer_instance

/-- The common prefix sub-pattern `§USER=([a-zA-Z0-9_]+)§` of both compiled
patterns in `regex.py` ("USER" case-insensitive due to `re.IGNORECASE`).
Returns the captured identifier and the remainder after the closing
delimiter; `none` when the prefix does not match.  The identifier group is
greedy; since identifier characters are never the delimiter, backtracking
to a shorter identifier can never succeed and the match, when it exists,
is unique. -/
def parseUserTag (s : Str) : Option (Str × Str) :=
  match s with
  | d0 :: c1 :: c2 :: c3 :: c4 :: d5 :: rest =>
    if d0 = '§' ∧ d5 = '=' ∧ SpellsUSER c1 c2 c3 c4 then
      match rest.takeWhile isIdentChar, rest.dropWhile isIdentChar with
      | [], _ => none
      | i :: is, '§' :: tail => some (i :: is, tail)
      | _ :: _, _ => none
    else none
  | _ => none

/-- `check_commandline_validity` from `regex.py`: match against
`^(§USER=[a-zA-Z0-9_]+§)?[^§]+$` (IGNORECASE).  When the optional prefix
group matches, the remainder must be one or more non-delimiter characters;
when it does not, the whole string must be (backtracking to the empty
prefix cannot succeed on a string starting with the delimiter). -/
def check_commandline_validity (s : Str) : Bool :=
  match parseUserTag s with
  | some (_, rest) => if rest ≠ [] ∧ (∀ c ∈ rest, c ≠ '§') then true else false
  | none => if s ≠ [] ∧ (∀ c ∈ s, c ≠ '§') then true else false

/-- `split_user_and_commandline` from `regex.py`: match against
`^§USER=([a-zA-Z0-9_]+)§([^§]+)$` (IGNORECASE); on failure return
`(None, commandline)` unchanged. -/
def split_user_and_commandline (s : Str) : Option Str × Str :=
  match parseUserTag s with
  | some (u, rest) => if rest ≠ [] ∧ (∀ c ∈ rest, c ≠ '§') then (some u, rest) else (none, s)
  | none => (none, s)

/-! ### The Process Inventory: `get_process_pids` -/

/-- One entry of the live-process table, as reported by `psutil`.
`vanished` models a process that exits between enumeration and attribute
read: accessing it raises `psutil.NoSuchProcess`, which `get_process_pids`
catches and skips. -/
structure ProcInfo where
  pid : Nat
  name : Str
  cmdline : List Str
  status : Str
  vanished : Bool
deriving DecidableEq

/-- `pids.add(proc_pid)` on the Python set, realized as an insertion-ordered
duplicate-free list. -/
def insertPid (acc : List Nat) (p : Nat) : List Nat :=
  if p ∈ acc then acc else acc ++ [p]

/-- The inner loop of `get_process_pids` for one commandline: scan the
process table, skipping vanished processes, PID 1 and zombies, and collect
the PIDs the Matcher accepts.  `none` models the matcher's exception
(uncaught: only `psutil.NoSuchProcess` is caught). -/
def scanTable (cwd cmd : Str) : List ProcInfo → List Nat → Option (List Nat)
  | [], acc => some acc
  | proc :: rest, acc =>
    if proc.vanished then scanTable cwd cmd rest acc
    else if proc.pid = 1 then scanTable cwd cmd rest acc
    else if proc.status = str "zombie" then scanTable cwd cmd rest acc
    else
      match has_suitable_commandline cwd cmd proc.name proc.cmdline with
      | none => none
      | some true => scanTable cwd cmd rest (insertPid acc proc.pid)
      | some false => scanTable cwd cmd rest acc

/-- The outer loop of `get_process_pids`: union the matches of all
commandlines into one PID set. -/
def scanAll (cwd : Str) : List Str → List ProcInfo → List Nat → Option (List Nat)
  | [], _, acc => some acc
  | cmd :: cmds, table, acc =>
    match scanTable cwd cmd table acc with
    | none => none
    | some acc' => scanAll cwd cmds table acc'

/-- `get_process_pids` from `run.py`, over an explicit process table.
User prefixes are stripped from the commandlines first; the PIDs of the
processes owned through `exclude_p_open_handles` are subtracted at the
end. -/
def get_process_pids (cwd : Str) (commandlines : List Str) (table : List ProcInfo)
    (excludePids : Option (List Nat)) : Option (List Nat) :=
  let cmds := commandlines.map (fun c => (split_user_and_commandline c).2)
  match scanAll cwd cmds table [] with
  | none => none
  | some pids =>
    match excludePids with
    | none => some pids
    | some ex => some (pids.filter (fun p => decide (p ∉ ex)))

/-! ### The Termination Controller: `term_processes`

Wall-clock time, signal delivery and the evolving process table are
external; they enter through a `TermEnv`.  Poll rounds index time: round 0
is the initial inventory, round `r + 1` is the state after the `r`-th
0.2-second sleep.  The controller's observable behaviour is a trace of
signal/sleep events. -/

/-- Environment of one `term_processes` call. -/
structure TermEnv where
  /-- The OS process table at poll round `r`. -/
  table : Nat → List ProcInfo
  /-- Whether owned handle `h` is still running (its `poll()` is `None`) at round `r`. -/
  handleRun : Nat → Nat → Bool
  /-- Whether OS pid `p` still exists when a signal is sent at round `r`
  (`false` makes `os.kill` raise `ProcessLookupError`, which is caught). -/
  pidAlive : Nat → Nat → Bool
  /-- How many poll iterations fit into the graceful window
  (`sigterm_timeout` divided by the 0.2 s poll interval). -/
  maxPolls : Nat

/-- Events emitted by the Termination Controller.  A `sent := false` signal
event records an `os.kill` that found the PID already gone and was silently
skipped. -/
inductive TEv where
  | sigterm (pid : Nat) (sent : Bool)
  | sigtermHandle (h : Nat)
  | sleep
  | sigkill (pid : Nat) (sent : Bool)
  | sigkillHandle (h : Nat)
deriving DecidableEq

/-- The graceful-phase polling loop of `term_processes`
(`while _get_n_processes() and elapsed < timeout: sleep; re-inventory`).
Returns the final round, the surviving external PIDs, the surviving owned
handles and the sleep events; `none` models an exception escaping a
re-inventory. -/
def pollLoop (cwd : Str) (cmds : List Str) (env : TermEnv) :
    Nat → Nat → List Nat → List Nat → Option (Nat × List Nat × List Nat × List TEv)
  | fuel, r, pids, handles =>
    let handles' := handles.filter (env.handleRun r)
    if pids.length + handles'.length = 0 then some (r, pids, handles', [])
    else
      match fuel with
      | 0 => some (r, pids, handles', [])
      | fuel + 1 =>
        match get_process_pids cwd cmds (env.table (r + 1)) (some handles') with
        | none => none
        | some pids' =>
          match pollLoop cwd cmds env fuel (r + 1) pids' handles' with
          | none => none
          | some (rf, pf, hf, evs) => some (rf, pf, hf, TEv.sleep :: evs)

/-- `term_processes` from `run.py`.  `useTimeout` is whether
`sigterm_timeout` was passed (the graceful phase happens); `handles0` are
the PIDs of the `p_open_handles` argument. -/
def term_processes (cwd : Str) (commandlines : List Str) (useTimeout : Bool)
    (handles0 : List Nat) (env : TermEnv) : Option (List TEv) :=
  match get_process_pids cwd commandlines (env.table 0) (some handles0) with
  | none => none
  | some pids0 =>
    let handles1 := handles0.filter (env.handleRun 0)
    if pids0.length + handles1.length = 0 then some []
    else if useTimeout then
      let termEvs := pids0.map (fun p => TEv.sigterm p (env.pidAlive 0 p)) ++
                     handles1.map TEv.sigtermHandle
      match pollLoop cwd commandlines env env.maxPolls 0 pids0 handles1 with
      | none => none
      | some (rf, pidsF, handlesF, sleepEvs) =>
        let killEvs :=
          if pidsF.length + handlesF.length = 0 then []
          else pidsF.map (fun p => TEv.sigkill p (env.pidAlive (rf + 1) p)) ++
               handlesF.map TEv.sigkillHandle
        some (termEvs ++ sleepEvs ++ killEvs)
    else
      some (pids0.map (fun p => TEv.sigkill p (env.pidAlive 1 p)) ++
            handles1.map TEv.sigkillHandle)

/-! ### The Lifecycle Orchestrator: `run_processes_in_background`

The initial `term_processes` call and each spawn change the outside world;
a `RunEnv` supplies those effects.  The orchestrator's observable behaviour
is a trace of events plus an outcome (`exit(-1)` on the authorization check
is the `authError` outcome; an uncaught exception is `exn`). -/

/-- The fixed graceful timeout `_SIGTERM_TIMEOUT = 9.0` of `run.py`. -/
def SIGTERM_TIMEOUT : ℚ := 9

/-- Environment of one `run_processes_in_background` call. -/
structure RunEnv where
  /-- The process table right after the initial `term_processes` call. -/
  afterTerm : List ProcInfo
  /-- The table update caused by spawning commandline `c` as pid `pid`. -/
  spawnTable : Str → Nat → List ProcInfo → List ProcInfo

/-- Events emitted by the Lifecycle Orchestrator. -/
inductive REv where
  | termCall (cmds : List Str) (timeout : Option ℚ)
  | spawned (cmd : Str) (user : Option Str) (shell : Bool) (pid : Nat)
  | skipped (cmd : Str)
deriving DecidableEq

/-- Final outcome of `run_processes_in_background`. -/
inductive RunOutcome where
  | ok (handles : List Nat)
  | authError (user : Str)
  | exn
deriving DecidableEq

/-- Orchestrator state: live table, owned handle PIDs, next fresh PID. -/
structure RunState where
  table : List ProcInfo
  handles : List Nat
  nextPid : Nat
deriving DecidableEq

/-- Result of the inner `p_open` helper. -/
inductive POpen where
  | ok (ev : REv) (st : RunState)
  | authError (user : Str)
  | exn
deriving DecidableEq

/-- The spawn part of `p_open`: pipe-containing commandlines go through the
shell, all others are tokenized and spawned directly (an untokenizable or
empty commandline raises there). -/
def pOpenSpawn (env : RunEnv) (st : RunState) (fullCmd : Str) (user : Option Str)
    (c : Str) : POpen :=
  if '|' ∈ c then
    .ok (.spawned fullCmd user true st.nextPid)
      ⟨env.spawnTable c st.nextPid st.table, st.handles ++ [st.nextPid], st.nextPid + 1⟩
  else
    match shlexSplit c with
    | none => .exn
    | some [] => .exn
    | some (_ :: _) =>
      .ok (.spawned fullCmd user false st.nextPid)
        ⟨env.spawnTable c st.nextPid st.table, st.handles ++ [st.nextPid], st.nextPid + 1⟩

/-- The inner `p_open` helper of `run_processes_in_background`: split off
the user prefix, enforce the authorization check, then spawn. -/
def pOpen (username : Str) (env : RunEnv) (st : RunState) (fullCmd : Str) : POpen :=
  match split_user_and_commandline fullCmd with
  | (some u, c) =>
    if username ≠ str "root" ∧ username ≠ u then .authError u
    else pOpenSpawn env st fullCmd (some u) c
  | (none, c) => pOpenSpawn env st fullCmd none c

/-- Result of one orchestrator loop: final state and events, or the events
up to an abort plus its outcome. -/
inductive LoopRes where
  | ok (st : RunState) (evs : List REv)
  | fail (evs : List REv) (out : RunOutcome)
deriving DecidableEq

/-- The `for _cmd in run:` loop — spawn every entry unconditionally. -/
def runPhase1 (username : Str) (env : RunEnv) : List Str → RunState → LoopRes
  | [], st => .ok st []
  | cmd :: rest, st =>
    match pOpen username env st cmd with
    | .authError u => .fail [] (.authError u)
    | .exn => .fail [] .exn
    | .ok ev st' =>
      match runPhase1 username env rest st' with
      | .ok st'' evs => .ok st'' (ev :: evs)
      | .fail evs out => .fail (ev :: evs) out

/-- The `for _cmd in run_once + terminate_and_run:` loop — query the
inventory first and skip the entry when matches exist. -/
def runPhase2 (cwd username : Str) (env : RunEnv) : List Str → RunState → LoopRes
  | [], st => .ok st []
  | cmd :: rest, st =>
    match get_process_pids cwd [cmd] st.table none with
    | none => .fail [] .exn
    | some (_ :: _) =>
      match runPhase2 cwd username env rest st with
      | .ok st' evs => .ok st' (.skipped cmd :: evs)
      | .fail evs out => .fail (.skipped cmd :: evs) out
    | some [] =>
      match pOpen username env st cmd with
      | .authError u => .fail [] (.authError u)
      | .exn => .fail [] .exn
      | .ok ev st' =>
        match runPhase2 cwd username env rest st' with
        | .ok st'' evs => .ok st'' (ev :: evs)
        | .fail evs out => .fail (ev :: evs) out

/-- `run_processes_in_background` from `run.py`: terminate the
terminate-and-run category first (fixed timeout), then spawn the `run`
category unconditionally, then process `run_once + terminate_and_run`
through the conditional loop. -/
def run_processes_in_background (cwd username : Str) (env : RunEnv)
    (run run_once terminate_and_run : List Str) : List REv × RunOutcome :=
  let ev0 := REv.termCall terminate_and_run (some SIGTERM_TIMEOUT)
  let st0 : RunState := ⟨env.afterTerm, [], 2⟩
  match runPhase1 username env run st0 with
  | .fail evs out => (ev0 :: evs, out)
  | .ok st1 evs1 =>
    match runPhase2 cwd username env (run_once ++ terminate_and_run) st1 with
    | .fail evs2 out => (ev0 :: (evs1 ++ evs2), out)
    | .ok st2 evs2 => (ev0 :: (evs1 ++ evs2), .ok st2.handles)

/-! ### Declarative forms of the CommandSpec grammar (from the spec's words) -/

/-- A string carrying a well-formed user prefix followed by a well-formed
commandline: `§USER=<ident>§<rest>` with `<ident>` one or more identifier
characters (the `IGNORECASE`-folded class), `USER` case-insensitive under
Unicode folding, and `<rest>` one or more non-delimiter characters. -/
def HasUserTag (s : Str) : Prop :=
  ∃ c1 c2 c3 c4 u rest, SpellsUSER c1 c2 c3 c4 ∧ u ≠ [] ∧
    (∀ c ∈ u, isIdentChar c = true) ∧ rest ≠ [] ∧ (∀ c ∈ rest, c ≠ '§') ∧
    s = '§' :: c1 :: c2 :: c3 :: c4 :: '=' :: (u ++ '§' :: rest)

/-- The CommandSpec validity grammar: an optional `§USER=<ident>§` prefix
followed by one or more characters none of which is the delimiter `§`. -/
def ValidCommandSpec (s : Str) : Prop :=
  (s ≠ [] ∧ ∀ c ∈ s, c ≠ '§') ∨ HasUserTag s

/-- The ASCII identifier class `[A-Za-z0-9_]`, exactly as the claims about
the CommandSpec grammar word it ("one or more ASCII letters, digits or
underscores"). -/
def isAsciiIdentChar (c : Char) : Bool := c.isAlpha || c.isDigit || c = '_'

/-- The four characters spell the literal `USER` with only ASCII case
variation, as the claims word it. -/
def SpellsUSERAscii (c1 c2 c3 c4 : Char) : Prop :=
  (c1 = 'U' ∨ c1 = 'u') ∧ (c2 = 'S' ∨ c2 = 's') ∧
  (c3 = 'E' ∨ c3 = 'e') ∧ (c4 = 'R' ∨ c4 = 'r')

/-- The ASCII-only user-prefix grammar the claims assert:
`§USER=<ident>§<rest>` with `<ident>` one or more ASCII
letters/digits/underscores. -/
def HasUserTagAscii (s : Str) : Prop :=
  ∃ c1 c2 c3 c4 u rest, SpellsUSERAscii c1 c2 c3 c4 ∧ u ≠ [] ∧
    (∀ c ∈ u, isAsciiIdentChar c = true) ∧ rest ≠ [] ∧ (∀ c ∈ rest, c ≠ '§') ∧
    s = '§' :: c1 :: c2 :: c3 :: c4 :: '=' :: (u ++ '§' :: rest)

/-- The validity grammar exactly as the claims state it (ASCII identifier
class). -/
def ValidCommandSpecAscii (s : Str) : Prop :=
  (s ≠ [] ∧ ∀ c ∈ s, c ≠ '§') ∨ HasUserTagAscii s

/-- The string `§USER=K§x` where `K` is the Kelvin sign U+212A: under
`re.IGNORECASE`, Python's `[a-zA-Z0-9_]` accepts the Kelvin sign, so the
program treats this as a well-formed user prefix although it fails the
ASCII grammar. -/
def kelvinSpec : Str :=
  '§' :: 'U' :: 'S' :: 'E' :: 'R' :: '=' :: '\u212A' :: '§' :: 'x' :: []

/-- The conditional start policy the Lifecycle Orchestrator applies to the
`run_once + terminate_and_run` entries, in the words of the (amended)
claim: each entry in turn is queried against the Process Inventory on the
current table; when live matches exist the entry is skipped with an
"already runs" outcome, and only when no live matches exist is a fresh
process spawned for it. -/
inductive RunOncePolicy (cwd username : Str) (env : RunEnv) :
    List Str → RunState → List REv → RunState → Prop where
  | nil (st : RunState) : RunOncePolicy cwd username env [] st [] st
  | skip {cmd : Str} {rest : List Str} {st stEnd : RunState} {evs : List REv}
      (p : Nat) (ps : List Nat) :
      get_process_pids cwd [cmd] st.table none = some (p :: ps) →
      RunOncePolicy cwd username env rest st evs stEnd →
      RunOncePolicy cwd username env (cmd :: rest) st (REv.skipped cmd :: evs) stEnd
  | spawn {cmd : Str} {rest : List Str} {st stNext stEnd : RunState} {ev : REv}
      {evs : List REv} :
      get_process_pids cwd [cmd] st.table none = some [] →
      pOpen username env st cmd = POpen.ok ev stNext →
      RunOncePolicy cwd username env rest stNext evs stEnd →
      RunOncePolicy cwd username env (cmd :: rest) st (ev :: evs) stEnd

/-- A PID `p` is matched by commandline `cmd` in `table`: some table entry
with that PID survived the attribute read (did not vanish), is not PID 1,
is not a zombie, and is accepted by the Matcher. -/
def MatchesIn (cwd cmd : Str) (table : List ProcInfo) (p : Nat) : Prop :=
  ∃ proc ∈ table, proc.vanished = false ∧ proc.pid ≠ 1 ∧
    proc.status ≠ str "zombie" ∧ proc.pid = p ∧
    has_suitable_commandline cwd cmd proc.name proc.cmdline = some true

/-- An orchestrator event is a spawn. -/
def isSpawnEv : REv → Bool
  | .spawned _ _ _ _ => true
  | _ => false

/-- The commandline of a spawn event (dummy for other events). -/
def spawnCmd : REv → Str
  | .spawned c _ _ _ => c
  | _ => []

/-- The spawn part of `p_open` succeeds on commandline `c` (a pipe makes it
go through the shell; otherwise the commandline must tokenize to at least
one word). -/
def spawnOk (c : Str) : Bool :=
  if '|' ∈ c then true
  else
    match shlexSplit c with
    | some (_ :: _) => true
    | _ => false

/-- `p_open` succeeds for `username` on `cmd`: the authorization check
passes and the spawn does not raise. -/
def pOpenOk (username : Str) (cmd : Str) : Bool :=
  match split_user_and_commandline cmd with
  | (some u, c) =>
    if username ≠ str "root" ∧ username ≠ u then false else spawnOk c
  | (none, c) => spawnOk c

/-- A trace event is a kill signal (to an external PID or an owned handle). -/
def isKillEv : TEv → Bool
  | .sigkill _ _ => true
  | .sigkillHandle _ => true
  | _ => false

/-- A trace event is a kill signal aimed at the external PID `p`. -/
def isKillOf (p : Nat) : TEv → Bool
  | .sigkill q _ => decide (q = p)
  | _ => false

/-- A trace event is a kill signal aimed at the owned handle `h`. -/
def isKillHandleOf (h : Nat) : TEv → Bool
  | .sigkillHandle q => decide (q = h)
  | _ => false

/-! ### Helper lemmas -/

theorem startsWith_refl (s : Str) : startsWith s s = true := by
  induction s with
  | nil => rfl
  | cons c cs ih => simp [startsWith, ih]

theorem takeWhile_all_append {p : Char → Bool} :
    ∀ (l : Str) (x : Char) (r : Str), (∀ c ∈ l, p c = true) → p x = false →
      (l ++ x :: r).takeWhile p = l ∧ (l ++ x :: r).dropWhile p = x :: r := by
  intro l
  induction l with
  | nil =>
    intro x r _ hx
    constructor
    · simp [List.takeWhile, hx]
    · simp [List.dropWhile, hx]
  | cons a l ih =>
    intro x r hl hx
    have ha : p a = true := hl a (List.mem_cons_self a l)
    have := ih x r (fun c hc => hl c (List.mem_cons_of_mem a hc)) hx
    constructor
    · simp [List.takeWhile, ha, this.1]
    · simp [List.dropWhile, ha, this.2]

theorem parseUserTag_cons_ne {c : Char} (rest : Str) (h : c ≠ '§') :
    parseUserTag (c :: rest) = none := by
  unfold parseUserTag
  split
  · rename_i d0 c1 c2 c3 c4 d5 tail heq
    rw [if_neg]
    intro ⟨h0, _, _⟩
    injection heq with h1 _
    exact h (h1.symm ▸ h0)
  · rfl

theorem parseUserTag_sound {s u rest : Str}
    (h : parseUserTag s = some (u, rest)) :
    ∃ c1 c2 c3 c4, SpellsUSER c1 c2 c3 c4 ∧ u ≠ [] ∧
      (∀ c ∈ u, isIdentChar c = true) ∧
      s = '§' :: c1 :: c2 :: c3 :: c4 :: '=' :: (u ++ '§' :: rest) := by
  unfold parseUserTag at h
  split at h
  case h_2 => cases h
  rename_i d0 c1 c2 c3 c4 d5 tail
  split at h
  case isFalse => cases h
  rename_i hcond
  obtain ⟨h0, h5, hspell⟩ := hcond
  split at h
  case h_1 => cases h
  case h_3 => cases h
  rename_i i is tail' htk hdw
  injection h with h'
  injection h' with hu hrest
  subst hu hrest h0 h5
  refine ⟨c1, c2, c3, c4, hspell, by simp, ?_, ?_⟩
  · intro c hc
    exact List.mem_takeWhile_imp (htk ▸ hc)
  · have : tail = tail.takeWhile isIdentChar ++ tail.dropWhile isIdentChar :=
      (List.takeWhile_append_dropWhile isIdentChar tail).symm
    rw [htk, hdw] at this
    rw [this]

theorem parseUserTag_encode {c1 c2 c3 c4 : Char} {u rest : Str}
    (hsp : SpellsUSER c1 c2 c3 c4) (hu : u ≠ [])
    (hid : ∀ c ∈ u, isIdentChar c = true) :
    parseUserTag ('§' :: c1 :: c2 :: c3 :: c4 :: '=' :: (u ++ '§' :: rest)) =
      some (u, rest) := by
  obtain ⟨i, is, rfl⟩ : ∃ i is, u = i :: is := by
    cases u with
    | nil => exact absurd rfl hu
    | cons i is => exact ⟨i, is, rfl⟩
  have hsect : isIdentChar '§' = false := by decide
  have h := takeWhile_all_append (p := isIdentChar) (i :: is) '§' rest hid hsect
  unfold parseUserTag
  dsimp only
  rw [if_pos ⟨rfl, rfl, hsp⟩, h.1, h.2]
  rfl

theorem clean_args_append (l1 l2 : List Str) :
    clean_args (l1 ++ l2) = clean_args l1 ++ clean_args l2 := by
  simp [clean_args]

/-! ### Claim theorems -/

/-- C9: Self-match round trip — for every commandline whose shell-word
tokenization is non-empty (so `split_commandline` yields `(exe, args)`),
the matcher `has_suitable_commandline` accepts a process that reports
exactly that executable and argument vector, for any working directory. -/
theorem matcher_self_match (cwd cl exe : Str) (args : List Str)
    (h : split_commandline cl = some (exe, args)) :
    has_suitable_commandline cwd cl exe args = some true := by
  simp only [has_suitable_commandline, h]
  rw [if_neg (by rintro ⟨-, -, hne⟩; exact hne rfl),
      if_pos ⟨Or.inl (startsWith_refl _), fun a ha => ha⟩]

theorem matcher_self_match_witness :
    split_commandline (str "python test.py") = some (str "python", [str "test.py"]) ∧
    has_suitable_commandline (str "/") (str "python test.py") (str "python")
      [str "test.py"] = some true :=
  ⟨by decide, matcher_self_match (str "/") (str "python test.py") (str "python")
    [str "test.py"] (by decide)⟩

/-- C2: The matcher returns `some true` only if the executable-identity
check passes: when both the tokenized spec executable and the process
executable contain a path separator their resolved absolute directories
agree (otherwise the directory step is skipped), and one executable
basename is a prefix of the other.  In particular
`/etc/bin/python` vs `/bin/python` is `false`, `python3` vs `python` and
`python` vs `python3` are `true`, and `python/src/test.py` vs `python` is
`false` for every process argument vector. -/
theorem matcher_identity_check :
    (∀ (cwd cl exe specExe : Str) (args specArgs : List Str),
      split_commandline cl = some (specExe, specArgs) →
      has_suitable_commandline cwd cl exe args = some true →
      ((('/' ∈ specExe) ∧ ('/' ∈ exe)) →
        dirname (abspath cwd specExe) = dirname (abspath cwd exe)) ∧
      (startsWith (basename specExe) (basename exe) = true ∨
       startsWith (basename exe) (basename specExe) = true)) ∧
    (∀ cwd : Str,
      has_suitable_commandline cwd (str "/etc/bin/python") (str "/bin/python") [] = some false) ∧
    (∀ cwd : Str,
      has_suitable_commandline cwd (str "python3") (str "python") [] = some true) ∧
    (∀ cwd : Str,
      has_suitable_commandline cwd (str "python") (str "python3") [] = some true) ∧
    (∀ (cwd : Str) (args : List Str),
      has_suitable_commandline cwd (str "python/src/test.py") (str "python") args = some false) := by
  refine ⟨?_, fun cwd => rfl, fun cwd => rfl, fun cwd => rfl, fun cwd args => rfl⟩
  intro cwd cl exe specExe args specArgs hsplit hm
  simp only [has_suitable_commandline, hsplit] at hm
  by_cases hdir : ('/' ∈ specExe) ∧ ('/' ∈ exe) ∧
      dirname (abspath cwd specExe) ≠ dirname (abspath cwd exe)
  · rw [if_pos hdir] at hm; cases hm
  · rw [if_neg hdir] at hm
    by_cases hb : (startsWith (basename specExe) (basename exe) = true ∨
        startsWith (basename exe) (basename specExe) = true) ∧
        ∀ a ∈ clean_args specArgs, a ∈ clean_args args
    · refine ⟨fun hsep => ?_, hb.1⟩
      by_contra hne
      exact hdir ⟨hsep.1, hsep.2, hne⟩
    · rw [if_neg hb] at hm; cases hm

theorem matcher_identity_check_witness :
    split_commandline (str "/bin/python") = some (str "/bin/python", []) ∧
    has_suitable_commandline (str "/") (str "/bin/python") (str "/bin/python") [] = some true ∧
    ((('/' ∈ str "/bin/python") ∧ ('/' ∈ str "/bin/python")) →
      dirname (abspath (str "/") (str "/bin/python")) =
        dirname (abspath (str "/") (str "/bin/python"))) ∧
    (startsWith (basename (str "/bin/python")) (basename (str "/bin/python")) = true ∨
     startsWith (basename (str "/bin/python")) (basename (str "/bin/python")) = true) :=
  ⟨by decide, by decide,
    matcher_identity_check.1 (str "/") (str "/bin/python") (str "/bin/python")
      (str "/bin/python") [] [] (by decide) (by decide)⟩

/-- C3: Argument containment — when the commandline tokenizes, the matcher
returns `some true` only if every normalized spec argument occurs verbatim
among the normalized process arguments; appending extra process arguments
never turns a match false (monotonicity); and when some normalized spec
argument is absent from the normalized process arguments the matcher
returns `some false`. -/
theorem matcher_arg_containment (cwd cl exe specExe : Str)
    (args extra specArgs : List Str)
    (hsplit : split_commandline cl = some (specExe, specArgs)) :
    (has_suitable_commandline cwd cl exe args = some true →
      (∀ a ∈ clean_args specArgs, a ∈ clean_args args) ∧
      has_suitable_commandline cwd cl exe (args ++ extra) = some true) ∧
    ((∃ a ∈ clean_args specArgs, a ∉ clean_args args) →
      has_suitable_commandline cwd cl exe args = some false) := by
  constructor
  · intro hm
    simp only [has_suitable_commandline, hsplit] at hm ⊢
    by_cases hdir : ('/' ∈ specExe) ∧ ('/' ∈ exe) ∧
        dirname (abspath cwd specExe) ≠ dirname (abspath cwd exe)
    · rw [if_pos hdir] at hm; cases hm
    · rw [if_neg hdir] at hm
      by_cases hb : (startsWith (basename specExe) (basename exe) = true ∨
          startsWith (basename exe) (basename specExe) = true) ∧
          ∀ a ∈ clean_args specArgs, a ∈ clean_args args
      · refine ⟨hb.2, ?_⟩
        have hmem : ∀ a ∈ clean_args specArgs, a ∈ clean_args (args ++ extra) := by
          intro a ha
          rw [clean_args_append]
          exact List.mem_append_left _ (hb.2 a ha)
        rw [if_neg hdir, if_pos ⟨hb.1, hmem⟩]
      · rw [if_neg hb] at hm; cases hm
  · intro ⟨a, ha, hna⟩
    simp only [has_suitable_commandline, hsplit]
    by_cases hdir : ('/' ∈ specExe) ∧ ('/' ∈ exe) ∧
        dirname (abspath cwd specExe) ≠ dirname (abspath cwd exe)
    · rw [if_pos hdir]
    · rw [if_neg hdir, if_neg (fun hb => hna (hb.2 a ha))]

theorem matcher_arg_containment_witness :
    split_commandline (str "python test.py") = some (str "python", [str "test.py"]) ∧
    ((has_suitable_commandline (str "/") (str "python test.py") (str "python")
        [str "test.py"] = some true →
      (∀ a ∈ clean_args [str "test.py"], a ∈ clean_args [str "test.py"]) ∧
      has_suitable_commandline (str "/") (str "python test.py") (str "python")
        ([str "test.py"] ++ [str "--extra"]) = some true) ∧
    ((∃ a ∈ clean_args [str "test.py"], a ∉ clean_args [str "test.py"]) →
      has_suitable_commandline (str "/") (str "python test.py") (str "python")
        [str "test.py"] = some false)) :=
  ⟨by decide, matcher_arg_containment (str "/") (str "python test.py") (str "python")
    (str "python") [str "test.py"] [str "--extra"] [str "test.py"] (by decide)⟩

/-- C10: Every non-empty string of shell-whitespace characters passes
`check_commandline_validity` (it is non-empty and delimiter-free), yet
`split_commandline` raises on it — shell-word splitting yields zero tokens
and indexing the first token fails — and the matcher, which tokenizes the
spec commandline first, propagates that exception; so the tokenizer and
matcher are not total over the commandlines the validity check accepts. -/
theorem validity_accepts_untokenizable (s : Str) (hne : s ≠ [])
    (hws : ∀ c ∈ s, isShlexWs c = true) :
    check_commandline_validity s = true ∧ split_commandline s = none ∧
    ∀ (cwd exe : Str) (args : List Str),
      has_suitable_commandline cwd s exe args = none := by
  have hsect : ∀ c ∈ s, c ≠ '§' := by
    intro c hc heq
    have := hws c hc
    rw [heq] at this
    cases this
  have hsplit : shlexSplit s = some [] := by
    have key : ∀ (t : Str), (∀ c ∈ t, isShlexWs c = true) →
        ∀ acc, shlexRun t .word [] false acc = some acc := by
      intro t
      induction t with
      | nil => intro _ acc; rfl
      | cons c cs ih =>
        intro h acc
        have hc : isShlexWs c = true := h c (List.mem_cons_self c cs)
        simp only [shlexRun, hc, if_true]
        have : ¬(([] : Str) ≠ [] ∨ true = true ∧ False) := by simp
        rw [if_neg (by simp)]
        exact ih (fun d hd => h d (List.mem_cons_of_mem c hd)) acc
    exact key s hws []
  have hcmd : split_commandline s = none := by
    unfold split_commandline
    rw [hsplit]
  refine ⟨?_, hcmd, ?_⟩
  · unfold check_commandline_validity
    cases s with
    | nil => exact absurd rfl hne
    | cons c cs =>
      rw [parseUserTag_cons_ne cs (hsect c (List.mem_cons_self c cs))]
      rw [if_pos ⟨hne, hsect⟩]
  · intro cwd exe args
    unfold has_suitable_commandline
    rw [hcmd]

theorem validity_accepts_untokenizable_witness :
    (str " " ≠ [] ∧ ∀ c ∈ str " ", isShlexWs c = true) ∧
    (check_commandline_validity (str " ") = true ∧ split_commandline (str " ") = none ∧
     ∀ (cwd exe : Str) (args : List Str),
       has_suitable_commandline cwd (str " ") exe args = none) :=
  ⟨⟨by decide, by decide⟩,
    validity_accepts_untokenizable (str " ") (by decide) (by decide)⟩

theorem kelvinSpec_not_asciiTag : ¬ HasUserTagAscii kelvinSpec := by
  rintro ⟨c1, c2, c3, c4, u, rest, -, hu, hid, -, -, hs⟩
  unfold kelvinSpec at hs
  injection hs with h0 hs
  injection hs with h1 hs
  injection hs with h2 hs
  injection hs with h3 hs
  injection hs with h4 hs
  injection hs with h5 hs
  cases u with
  | nil => exact hu rfl
  | cons a u2 =>
    injection hs with ha _
    have hmem := hid a (List.mem_cons_self a u2)
    rw [← ha] at hmem
    exact absurd hmem (by decide)

/-- C6 counterexample: the program (both regexes carry `re.IGNORECASE` on
Unicode strings, under which `[a-zA-Z0-9_]` also matches the Kelvin sign
U+212A) accepts `§USER=K§x` with `K` the Kelvin sign, although that string
fails the claim's ASCII user-prefix grammar — so the claimed iff is false
at this input. -/
theorem validity_not_ascii_counterexample :
    check_commandline_validity kelvinSpec = true ∧
    ¬ ValidCommandSpecAscii kelvinSpec := by
  refine ⟨by decide, ?_⟩
  rintro (⟨-, hns⟩ | htag)
  · exact hns '§' (by decide) rfl
  · exact kelvinSpec_not_asciiTag htag

/-- C6 (amended): `check_commandline_validity(raw)` is true exactly when
`raw` consists of an optional `§USER=<ident>§` prefix followed by one or
more characters none of which is the delimiter `§`, where — matching
Python's documented `re.IGNORECASE` semantics — `<ident>` is one or more
characters of `[A-Za-z0-9_]` extended by the four case-folded characters
U+0130, U+0131, U+017F and U+212A, and the literal `USER` is matched
case-insensitively with U+017F also matching the `S`.  Any variant with a
space, slash or other non-identifier character inside the `USER=` segment,
or with an unterminated delimiter, remains invalid. -/
theorem validity_grammar (s : Str) :
    check_commandline_validity s = true ↔ ValidCommandSpec s := by
  constructor
  · intro h
    rcases hp : parseUserTag s with _ | ⟨u, rest⟩
    · simp only [check_commandline_validity, hp] at h
      by_cases hc : s ≠ [] ∧ ∀ c ∈ s, c ≠ '§'
      · exact Or.inl hc
      · rw [if_neg hc] at h; cases h
    · simp only [check_commandline_validity, hp] at h
      by_cases hc : rest ≠ [] ∧ ∀ c ∈ rest, c ≠ '§'
      · obtain ⟨c1, c2, c3, c4, hsp, hu, hid, hs⟩ := parseUserTag_sound hp
        exact Or.inr ⟨c1, c2, c3, c4, u, rest, hsp, hu, hid, hc.1, hc.2, hs⟩
      · rw [if_neg hc] at h; cases h
  · intro h
    rcases h with ⟨hne, hns⟩ | ⟨c1, c2, c3, c4, u, rest, hsp, hu, hid, hrne, hrns, rfl⟩
    · cases s with
      | nil => exact absurd rfl hne
      | cons c cs =>
        simp only [check_commandline_validity,
          parseUserTag_cons_ne cs (hns c (List.mem_cons_self c cs))]
        rw [if_pos ⟨hne, hns⟩]
    · simp only [check_commandline_validity, parseUserTag_encode hsp hu hid]
      rw [if_pos ⟨hrne, hrns⟩]

theorem validity_grammar_witness : ValidCommandSpec (str "§USER=bla§sshd -D") :=
  (validity_grammar (str "§USER=bla§sshd -D")).mp (by decide)

/-- C7 counterexample: the program returns `(K, x)` (with `K` the Kelvin
sign U+212A) for `§USER=K§x`, a string that fails the claim's ASCII
user-prefix grammar — contradicting "returns `(None, s)` for every `s`
failing the grammar". -/
theorem split_not_none_counterexample :
    split_user_and_commandline kelvinSpec = (some ['\u212A'], ['x']) ∧
    ¬ HasUserTagAscii kelvinSpec :=
  ⟨by decide, kelvinSpec_not_asciiTag⟩

/-- C7 (amended): `split_user_and_commandline` is total: it returns
`(none, s)` unchanged for every string that lacks or fails the
(IGNORECASE-folded) user-prefix grammar, and returns exactly the captured
`(ident, remainder)` for every string of the form `§USER=<ident>§<rest>`
in that grammar — `<ident>` one or more identifier characters of the
folded class, `<rest>` one or more non-delimiter characters. -/
theorem split_total :
    (∀ s : Str, ¬ HasUserTag s → split_user_and_commandline s = (none, s)) ∧
    (∀ (c1 c2 c3 c4 : Char) (u rest : Str), SpellsUSER c1 c2 c3 c4 → u ≠ [] →
      (∀ c ∈ u, isIdentChar c = true) → rest ≠ [] → (∀ c ∈ rest, c ≠ '§') →
      split_user_and_commandline ('§' :: c1 :: c2 :: c3 :: c4 :: '=' :: (u ++ '§' :: rest)) =
        (some u, rest)) := by
  constructor
  · intro s hn
    rcases hp : parseUserTag s with _ | ⟨u, rest⟩
    · simp only [split_user_and_commandline, hp]
    · simp only [split_user_and_commandline, hp]
      rw [if_neg]
      intro ⟨hrne, hrns⟩
      obtain ⟨c1, c2, c3, c4, hsp, hu, hid, hs⟩ := parseUserTag_sound hp
      exact hn ⟨c1, c2, c3, c4, u, rest, hsp, hu, hid, hrne, hrns, hs⟩
  · intro c1 c2 c3 c4 u rest hsp hu hid hrne hrns
    simp only [split_user_and_commandline, parseUserTag_encode hsp hu hid]
    rw [if_pos ⟨hrne, hrns⟩]

theorem split_total_witness :
    split_user_and_commandline (str "python3 bla.py") = (none, str "python3 bla.py") ∧
    split_user_and_commandline (str "§USER=bla§sshd -D") = (some (str "bla"), str "sshd -D") := by
  constructor
  · refine split_total.1 (str "python3 bla.py") ?_
    rintro ⟨c1, c2, c3, c4, u, rest, -, -, -, -, -, hs⟩
    injection hs with h1 _
    exact absurd h1 (by decide)
  · have h := split_total.2 'U' 'S' 'E' 'R' (str "bla") (str "sshd -D")
      (by decide) (by decide) (by decide) (by decide) (by decide)
    have e : ('§' :: 'U' :: 'S' :: 'E' :: 'R' :: '=' :: (str "bla" ++ '§' :: str "sshd -D")) =
        str "§USER=bla§sshd -D" := by decide
    rw [e] at h
    exact h

theorem insertPid_mem (acc : List Nat) (p q : Nat) :
    q ∈ insertPid acc p ↔ q ∈ acc ∨ q = p := by
  unfold insertPid
  split
  · rename_i hp
    constructor
    · exact Or.inl
    · rintro (h | rfl)
      · exact h
      · exact hp
  · simp [List.mem_append]

theorem insertPid_nodup {acc : List Nat} (h : acc.Nodup) (p : Nat) :
    (insertPid acc p).Nodup := by
  unfold insertPid
  split
  · exact h
  · rename_i hp
    simpa [List.nodup_append] using ⟨h, fun hmem => hp hmem⟩

theorem scanTable_sound (cwd cmd : Str) :
    ∀ (table : List ProcInfo) (acc out : List Nat),
      scanTable cwd cmd table acc = some out →
      ∀ p, p ∈ out ↔ (p ∈ acc ∨ MatchesIn cwd cmd table p) := by
  intro table
  induction table with
  | nil =>
    intro acc out h p
    injection h with h
    subst h
    simp [MatchesIn]
  | cons proc rest ih =>
    intro acc out h p
    unfold scanTable at h
    by_cases hv : proc.vanished = true
    · rw [if_pos hv] at h
      rw [ih acc out h p]
      constructor
      · rintro (h | h)
        · exact Or.inl h
        · exact Or.inr (by obtain ⟨q, hq, hrest⟩ := h; exact ⟨q, List.mem_cons_of_mem _ hq, hrest⟩)
      · rintro (h | ⟨q, hq, hq1, hq2, hq3, hq4, hq5⟩)
        · exact Or.inl h
        · rcases List.mem_cons.mp hq with rfl | hq
          · rw [hv] at hq1; cases hq1
          · exact Or.inr ⟨q, hq, hq1, hq2, hq3, hq4, hq5⟩
    · rw [if_neg hv] at h
      have hv' : proc.vanished = false := by
        cases hb : proc.vanished
        · rfl
        · exact absurd hb hv
      by_cases h1 : proc.pid = 1
      · rw [if_pos h1] at h
        rw [ih acc out h p]
        constructor
        · rintro (h | ⟨q, hq, hrest⟩)
          · exact Or.inl h
          · exact Or.inr ⟨q, List.mem_cons_of_mem _ hq, hrest⟩
        · rintro (h | ⟨q, hq, hq1, hq2, hq3, hq4, hq5⟩)
          · exact Or.inl h
          · rcases List.mem_cons.mp hq with rfl | hq
            · exact absurd h1 hq2
            · exact Or.inr ⟨q, hq, hq1, hq2, hq3, hq4, hq5⟩
      · rw [if_neg h1] at h
        by_cases hz : proc.status = str "zombie"
        · rw [if_pos hz] at h
          rw [ih acc out h p]
          constructor
          · rintro (h | ⟨q, hq, hrest⟩)
            · exact Or.inl h
            · exact Or.inr ⟨q, List.mem_cons_of_mem _ hq, hrest⟩
          · rintro (h | ⟨q, hq, hq1, hq2, hq3, hq4, hq5⟩)
            · exact Or.inl h
            · rcases List.mem_cons.mp hq with rfl | hq
              · exact absurd hz hq3
              · exact Or.inr ⟨q, hq, hq1, hq2, hq3, hq4, hq5⟩
        · rw [if_neg hz] at h
          rcases hm : has_suitable_commandline cwd cmd proc.name proc.cmdline with _ | b
          · rw [hm] at h; cases h
          · rw [hm] at h
            cases b
            · rw [ih acc out h p]
              constructor
              · rintro (h | ⟨q, hq, hrest⟩)
                · exact Or.inl h
                · exact Or.inr ⟨q, List.mem_cons_of_mem _ hq, hrest⟩
              · rintro (h | ⟨q, hq, hq1, hq2, hq3, hq4, hq5⟩)
                · exact Or.inl h
                · rcases List.mem_cons.mp hq with rfl | hq
                  · rw [hm] at hq5; cases hq5
                  · exact Or.inr ⟨q, hq, hq1, hq2, hq3, hq4, hq5⟩
            · rw [ih _ out h p, insertPid_mem]
              constructor
              · rintro ((h | rfl) | ⟨q, hq, hrest⟩)
                · exact Or.inl h
                · exact Or.inr ⟨proc, List.mem_cons_self _ _, hv', h1, hz, rfl, hm⟩
                · exact Or.inr ⟨q, List.mem_cons_of_mem _ hq, hrest⟩
              · rintro (h | ⟨q, hq, hq1, hq2, hq3, hq4, hq5⟩)
                · exact Or.inl (Or.inl h)
                · rcases List.mem_cons.mp hq with rfl | hq
                  · exact Or.inl (Or.inr hq4.symm)
                  · exact Or.inr ⟨q, hq, hq1, hq2, hq3, hq4, hq5⟩

theorem scanTable_nodup (cwd cmd : Str) :
    ∀ (table : List ProcInfo) (acc out : List Nat),
      scanTable cwd cmd table acc = some out → acc.Nodup → out.Nodup := by
  intro table
  induction table with
  | nil =>
    intro acc out h hn
    injection h with h
    subst h
    exact hn
  | cons proc rest ih =>
    intro acc out h hn
    unfold scanTable at h
    split at h
    · exact ih acc out h hn
    · split at h
      · exact ih acc out h hn
      · split at h
        · exact ih acc out h hn
        · rcases hm : has_suitable_commandline cwd cmd proc.name proc.cmdline with _ | b
          · rw [hm] at h; cases h
          · rw [hm] at h
            cases b
            · exact ih acc out h hn
            · exact ih _ out h (insertPid_nodup hn _)

theorem scanAll_sound (cwd : Str) (table : List ProcInfo) :
    ∀ (cmds : List Str) (acc out : List Nat),
      scanAll cwd cmds table acc = some out →
      ∀ p, p ∈ out ↔ (p ∈ acc ∨ ∃ cmd ∈ cmds, MatchesIn cwd cmd table p) := by
  intro cmds
  induction cmds with
  | nil =>
    intro acc out h p
    injection h with h
    subst h
    simp
  | cons cmd cmds ih =>
    intro acc out h p
    unfold scanAll at h
    rcases hs : scanTable cwd cmd table acc with _ | acc'
    · rw [hs] at h; cases h
    · rw [hs] at h
      rw [ih acc' out h p, scanTable_sound cwd cmd table acc acc' hs p]
      constructor
      · rintro ((h | h) | ⟨c, hc, hm⟩)
        · exact Or.inl h
        · exact Or.inr ⟨cmd, List.mem_cons_self _ _, h⟩
        · exact Or.inr ⟨c, List.mem_cons_of_mem _ hc, hm⟩
      · rintro (h | ⟨c, hc, hm⟩)
        · exact Or.inl (Or.inl h)
        · rcases List.mem_cons.mp hc with rfl | hc
          · exact Or.inl (Or.inr hm)
          · exact Or.inr ⟨c, hc, hm⟩

theorem scanAll_nodup (cwd : Str) (table : List ProcInfo) :
    ∀ (cmds : List Str) (acc out : List Nat),
      scanAll cwd cmds table acc = some out → acc.Nodup → out.Nodup := by
  intro cmds
  induction cmds with
  | nil =>
    intro acc out h hn
    injection h with h
    subst h
    exact hn
  | cons cmd cmds ih =>
    intro acc out h hn
    unfold scanAll at h
    rcases hs : scanTable cwd cmd table acc with _ | acc'
    · rw [hs] at h; cases h
    · rw [hs] at h
      exact ih acc' out h (scanTable_nodup cwd cmd table acc acc' hs hn)

theorem scanTable_vanished (cwd cmd : Str) {proc : ProcInfo}
    (hv : proc.vanished = true) :
    ∀ (t1 t2 : List ProcInfo) (acc : List Nat),
      scanTable cwd cmd (t1 ++ proc :: t2) acc = scanTable cwd cmd (t1 ++ t2) acc := by
  intro t1
  induction t1 with
  | nil =>
    intro t2 acc
    simp only [List.nil_append]
    conv_lhs => unfold scanTable
    rw [if_pos hv]
  | cons q t1 ih =>
    intro t2 acc
    simp only [List.cons_append]
    unfold scanTable
    split
    · exact ih t2 acc
    · split
      · exact ih t2 acc
      · split
        · exact ih t2 acc
        · rcases has_suitable_commandline cwd cmd q.name q.cmdline with _ | b
          · rfl
          · cases b
            · exact ih t2 acc
            · exact ih t2 _

theorem scanAll_vanished (cwd : Str) {proc : ProcInfo} (hv : proc.vanished = true)
    (t1 t2 : List ProcInfo) :
    ∀ (cmds : List Str) (acc : List Nat),
      scanAll cwd cmds (t1 ++ proc :: t2) acc = scanAll cwd cmds (t1 ++ t2) acc := by
  intro cmds
  induction cmds with
  | nil => intro acc; rfl
  | cons cmd cmds ih =>
    intro acc
    unfold scanAll
    rw [scanTable_vanished cwd cmd hv t1 t2 acc]
    rcases scanTable cwd cmd (t1 ++ t2) acc with _ | acc'
    · rfl
    · exact ih acc'

/-- C8: Characterization of the Process Inventory.  Every PID returned by
`get_process_pids` is not 1, comes from a non-zombie, non-vanished table
entry matching at least one of the given commandlines after the
user-prefix is stripped, and is not among the excluded PIDs; matches are
unioned across all commandlines into one duplicate-free list; and an entry
that vanishes between enumeration and attribute read is silently skipped —
removing a vanished entry from the table never changes the result and
never surfaces an error. -/
theorem inventory_characterization :
    (∀ (cwd : Str) (cmdlines : List Str) (table : List ProcInfo)
        (ex : List Nat) (out : List Nat),
      get_process_pids cwd cmdlines table (some ex) = some out →
      out.Nodup ∧
      ∀ p, p ∈ out ↔ (p ∉ ex ∧
        ∃ c ∈ cmdlines, MatchesIn cwd (split_user_and_commandline c).2 table p)) ∧
    (∀ (cwd : Str) (cmdlines : List Str) (t1 t2 : List ProcInfo) (proc : ProcInfo)
        (ex : Option (List Nat)), proc.vanished = true →
      get_process_pids cwd cmdlines (t1 ++ proc :: t2) ex =
        get_process_pids cwd cmdlines (t1 ++ t2) ex) := by
  constructor
  · intro cwd cmdlines table ex out h
    unfold get_process_pids at h
    dsimp only at h
    rcases hs : scanAll cwd (cmdlines.map (fun c => (split_user_and_commandline c).2)) table [] with _ | pids
    · rw [hs] at h; cases h
    · rw [hs] at h
      injection h with h
      subst h
      have hsound := scanAll_sound cwd table _ [] pids hs
      constructor
      · exact List.Nodup.filter _ (scanAll_nodup cwd table _ [] pids hs List.nodup_nil)
      · intro p
        rw [List.mem_filter, hsound p]
        simp only [List.not_mem_nil, false_or, List.mem_map, decide_eq_true_eq]
        constructor
        · rintro ⟨⟨c', ⟨c, hc, rfl⟩, hm⟩, hex⟩
          exact ⟨hex, c, hc, hm⟩
        · rintro ⟨hex, c, hc, hm⟩
          exact ⟨⟨_, ⟨c, hc, rfl⟩, hm⟩, hex⟩
  · intro cwd cmdlines t1 t2 proc ex hv
    unfold get_process_pids
    dsimp only
    rw [scanAll_vanished cwd hv t1 t2]

theorem inventory_characterization_witness :
    get_process_pids (str "/") [str "worker"]
        [⟨5, str "worker", [str "worker"], str "running", false⟩] (some []) = some [5] ∧
    [5].Nodup ∧
    (∀ p, p ∈ [5] ↔ (p ∉ ([] : List Nat) ∧
      ∃ c ∈ [str "worker"], MatchesIn (str "/") (split_user_and_commandline c).2
        [⟨5, str "worker", [str "worker"], str "running", false⟩] p)) :=
  ⟨by decide,
    inventory_characterization.1 (str "/") [str "worker"]
      [⟨5, str "worker", [str "worker"], str "running", false⟩] [] [5] (by decide)⟩

theorem pollLoop_sleeps (cwd : Str) (cmds : List Str) (env : TermEnv) :
    ∀ (fuel r : Nat) (pids handles : List Nat) (rf : Nat) (pf hf : List Nat)
      (evs : List TEv),
      pollLoop cwd cmds env fuel r pids handles = some (rf, pf, hf, evs) →
      ∀ e ∈ evs, e = TEv.sleep := by
  intro fuel
  induction fuel with
  | zero =>
    intro r pids handles rf pf hf evs h e he
    unfold pollLoop at h
    dsimp only at h
    split at h
    · injection h with h
      injection h with _ h
      injection h with _ h
      injection h with _ h
      subst h
      cases he
    · injection h with h
      injection h with _ h
      injection h with _ h
      injection h with _ h
      subst h
      cases he
  | succ fuel ih =>
    intro r pids handles rf pf hf evs h e he
    unfold pollLoop at h
    dsimp only at h
    split at h
    · injection h with h
      injection h with _ h
      injection h with _ h
      injection h with _ h
      subst h
      cases he
    · rcases hg : get_process_pids cwd cmds (env.table (r + 1))
          (some (handles.filter (env.handleRun r))) with _ | pids'
      · rw [hg] at h; cases h
      · rw [hg] at h
        dsimp only at h
        rcases hp : pollLoop cwd cmds env fuel (r + 1) pids'
            (handles.filter (env.handleRun r)) with _ | res
        · rw [hp] at h; cases h
        · obtain ⟨rf', pf', hf', evs'⟩ := res
          rw [hp] at h
          injection h with h
          injection h with _ h
          injection h with _ h
          injection h with _ h
          subst h
          rcases List.mem_cons.mp he with rfl | he
          · rfl
          · exact ih (r + 1) pids' (handles.filter (env.handleRun r)) rf' pf' hf' evs' hp e he

theorem get_process_pids_nodup {cwd : Str} {cmds : List Str} {table : List ProcInfo}
    {ex : Option (List Nat)} {out : List Nat}
    (h : get_process_pids cwd cmds table ex = some out) : out.Nodup := by
  unfold get_process_pids at h
  dsimp only at h
  rcases hs : scanAll cwd (cmds.map (fun c => (split_user_and_commandline c).2)) table [] with _ | pids
  · rw [hs] at h; cases h
  · rw [hs] at h
    have hn := scanAll_nodup cwd table _ [] pids hs List.nodup_nil
    cases ex with
    | none => injection h with h; subst h; exact hn
    | some ex => injection h with h; subst h; exact hn.filter _

theorem pollLoop_nodup (cwd : Str) (cmds : List Str) (env : TermEnv) :
    ∀ (fuel r : Nat) (pids handles : List Nat) (rf : Nat) (pf hf : List Nat)
      (evs : List TEv),
      pollLoop cwd cmds env fuel r pids handles = some (rf, pf, hf, evs) →
      pids.Nodup → pf.Nodup := by
  intro fuel
  induction fuel with
  | zero =>
    intro r pids handles rf pf hf evs h hn
    unfold pollLoop at h
    dsimp only at h
    split at h <;>
      (injection h with h; injection h with _ h; injection h with h _; subst h; exact hn)
  | succ fuel ih =>
    intro r pids handles rf pf hf evs h hn
    unfold pollLoop at h
    dsimp only at h
    split at h
    · injection h with h
      injection h with _ h
      injection h with h _
      subst h
      exact hn
    · rcases hg : get_process_pids cwd cmds (env.table (r + 1))
          (some (handles.filter (env.handleRun r))) with _ | pids'
      · rw [hg] at h; cases h
      · rw [hg] at h
        dsimp only at h
        rcases hp : pollLoop cwd cmds env fuel (r + 1) pids'
            (handles.filter (env.handleRun r)) with _ | res
        · rw [hp] at h; cases h
        · obtain ⟨rf', pf', hf', evs'⟩ := res
          rw [hp] at h
          injection h with h
          injection h with _ h
          injection h with h _
          subst h
          exact ih (r + 1) pids' (handles.filter (env.handleRun r)) rf' pf' hf' evs' hp
            (get_process_pids_nodup hg)

theorem countP_killOf_map (aliveF : Nat → Bool) (p : Nat) :
    ∀ pf : List Nat, pf.Nodup →
      (pf.map (fun q => TEv.sigkill q (aliveF q))).countP (isKillOf p) =
        if p ∈ pf then 1 else 0 := by
  intro pf
  induction pf with
  | nil => intro _; simp
  | cons q pf ih =>
    intro hn
    have hn' := (List.nodup_cons.mp hn).2
    have hq := (List.nodup_cons.mp hn).1
    simp only [List.map_cons, List.countP_cons, ih hn', isKillOf, decide_eq_true_eq]
    by_cases hpq : q = p
    · subst hpq
      rw [if_neg hq, if_pos rfl, if_pos (List.mem_cons_self q pf)]
    · rw [if_neg hpq, Nat.add_zero]
      by_cases hmem : p ∈ pf
      · rw [if_pos hmem, if_pos (List.mem_cons_of_mem q hmem)]
      · rw [if_neg hmem, if_neg (fun hc =>
          (List.mem_cons.mp hc).elim (fun h => hpq h.symm) hmem)]

theorem countP_killOf_zero (p : Nat) {l : List TEv}
    (h : ∀ e ∈ l, isKillOf p e = false) : l.countP (isKillOf p) = 0 :=
  List.countP_eq_zero.mpr (fun e he => by rw [h e he]; exact Bool.false_ne_true)

theorem countP_eq_zero_of_false {p : TEv → Bool} {l : List TEv}
    (h : ∀ e ∈ l, p e = false) : l.countP p = 0 :=
  List.countP_eq_zero.mpr (fun e he => by rw [h e he]; exact Bool.false_ne_true)

theorem countP_killHandleOf_map (h : Nat) :
    ∀ hf : List Nat, hf.Nodup →
      (hf.map TEv.sigkillHandle).countP (isKillHandleOf h) =
        if h ∈ hf then 1 else 0 := by
  intro hf
  induction hf with
  | nil => intro _; simp
  | cons q hf ih =>
    intro hn
    have hn' := (List.nodup_cons.mp hn).2
    have hq := (List.nodup_cons.mp hn).1
    simp only [List.map_cons, List.countP_cons, ih hn', isKillHandleOf,
      decide_eq_true_eq]
    by_cases hqh : q = h
    · subst hqh
      rw [if_neg hq, if_pos rfl, if_pos (List.mem_cons_self q hf)]
    · rw [if_neg hqh, Nat.add_zero]
      by_cases hmem : h ∈ hf
      · rw [if_pos hmem, if_pos (List.mem_cons_of_mem q hmem)]
      · rw [if_neg hmem, if_neg (fun hc =>
          (List.mem_cons.mp hc).elim (fun hx => hqh hx.symm) hmem)]

theorem pollLoop_handles_nodup (cwd : Str) (cmds : List Str) (env : TermEnv) :
    ∀ (fuel r : Nat) (pids handles : List Nat) (rf : Nat) (pf hf : List Nat)
      (evs : List TEv),
      pollLoop cwd cmds env fuel r pids handles = some (rf, pf, hf, evs) →
      handles.Nodup → hf.Nodup := by
  intro fuel
  induction fuel with
  | zero =>
    intro r pids handles rf pf hf evs h hn
    unfold pollLoop at h
    dsimp only at h
    split at h <;>
      (injection h with h; injection h with _ h; injection h with _ h;
       injection h with h _; subst h; exact hn.filter _)
  | succ fuel ih =>
    intro r pids handles rf pf hf evs h hn
    unfold pollLoop at h
    dsimp only at h
    split at h
    · injection h with h
      injection h with _ h
      injection h with _ h
      injection h with h _
      subst h
      exact hn.filter _
    · rcases hg : get_process_pids cwd cmds (env.table (r + 1))
          (some (handles.filter (env.handleRun r))) with _ | pids'
      · rw [hg] at h; cases h
      · rw [hg] at h
        dsimp only at h
        rcases hp : pollLoop cwd cmds env fuel (r + 1) pids'
            (handles.filter (env.handleRun r)) with _ | res
        · rw [hp] at h; cases h
        · obtain ⟨rf', pf', hf', evs'⟩ := res
          rw [hp] at h
          injection h with h
          injection h with _ h
          injection h with _ h
          injection h with h _
          subst h
          exact ih (r + 1) pids' (handles.filter (env.handleRun r)) rf' pf' hf' evs' hp
            (hn.filter _)

theorem killOf_false_of_not_killEv {x : TEv} (h : isKillEv x = false) (p : Nat) :
    isKillOf p x = false := by
  cases x
  · rfl
  · rfl
  · rfl
  · cases h
  · cases h

theorem pollLoop_nil_nil (cwd : Str) (cmds : List Str) (env : TermEnv)
    (fuel r : Nat) : pollLoop cwd cmds env fuel r [] [] = some (r, [], [], []) := by
  cases fuel <;> simp [pollLoop]

theorem kills_form_suffix {A B l1 l2 : List TEv} {e : TEv}
    (hA : ∀ x ∈ A, isKillEv x = false) (hB : ∀ x ∈ B, isKillEv x = true) :
    A ++ B = l1 ++ e :: l2 → isKillEv e = true → ∀ x ∈ l2, isKillEv x = true := by
  induction A generalizing l1 with
  | nil =>
    intro hEq _ x hx
    simp only [List.nil_append] at hEq
    subst hEq
    exact hB x (by
      rw [List.mem_append]
      exact Or.inr (List.mem_cons_of_mem e hx))
  | cons a A ih =>
    intro hEq he x hx
    cases l1 with
    | nil =>
      simp only [List.nil_append, List.cons_append] at hEq
      injection hEq with h1 _
      subst h1
      exact absurd he (by rw [hA a (List.mem_cons_self a A)]; exact Bool.false_ne_true)
    | cons b l1 =>
      simp only [List.cons_append] at hEq
      injection hEq with _ h2
      exact ih (fun y hy => hA y (List.mem_cons_of_mem a hy)) h2 he x hx

/-- C4: In the Termination Controller, whether or not a graceful phase
occurred, every victim still present after the graceful window (or
immediately, when no `sigterm_timeout` is given) — both external PIDs and
owned handles — receives the unconditional kill signal exactly once, with
no waiting afterwards (once a kill event appears in the trace, every later
event is also a kill event; in the no-timeout case there are no sleep
events at all); and a PID that has already exited when a stop or kill
signal would be sent is silently skipped — the corresponding event is
recorded with `sent = false` and the controller still completes
normally. -/
theorem termination_kill_phase :
    (∀ (cwd : Str) (cmds : List Str) (env : TermEnv) (handles0 pids0 : List Nat)
        (rf : Nat) (pidsF handlesF : List Nat) (sleepEvs tr : List TEv),
      get_process_pids cwd cmds (env.table 0) (some handles0) = some pids0 →
      pollLoop cwd cmds env env.maxPolls 0 pids0 (handles0.filter (env.handleRun 0)) =
        some (rf, pidsF, handlesF, sleepEvs) →
      term_processes cwd cmds true handles0 env = some tr →
      (∀ p ∈ pids0, TEv.sigterm p (env.pidAlive 0 p) ∈ tr) ∧
      (∀ q ∈ handles0.filter (env.handleRun 0), TEv.sigtermHandle q ∈ tr) ∧
      (∀ p ∈ pidsF, tr.countP (isKillOf p) = 1 ∧
        TEv.sigkill p (env.pidAlive (rf + 1) p) ∈ tr) ∧
      (∀ q ∈ handlesF, TEv.sigkillHandle q ∈ tr) ∧
      (handles0.Nodup → ∀ q ∈ handlesF, tr.countP (isKillHandleOf q) = 1) ∧
      (∀ (l1 l2 : List TEv) (e : TEv), tr = l1 ++ e :: l2 → isKillEv e = true →
        ∀ x ∈ l2, isKillEv x = true)) ∧
    (∀ (cwd : Str) (cmds : List Str) (env : TermEnv) (handles0 pids0 : List Nat)
        (tr : List TEv),
      get_process_pids cwd cmds (env.table 0) (some handles0) = some pids0 →
      term_processes cwd cmds false handles0 env = some tr →
      TEv.sleep ∉ tr ∧
      (∀ p ∈ pids0, tr.countP (isKillOf p) = 1 ∧
        TEv.sigkill p (env.pidAlive 1 p) ∈ tr) ∧
      (∀ q ∈ handles0.filter (env.handleRun 0), TEv.sigkillHandle q ∈ tr) ∧
      (handles0.Nodup → ∀ q ∈ handles0.filter (env.handleRun 0),
        tr.countP (isKillHandleOf q) = 1) ∧
      (∀ (l1 l2 : List TEv) (e : TEv), tr = l1 ++ e :: l2 → isKillEv e = true →
        ∀ x ∈ l2, isKillEv x = true)) := by
  constructor
  · intro cwd cmds env handles0 pids0 rf pidsF handlesF sleepEvs tr hget hpoll htr
    unfold term_processes at htr
    rw [hget] at htr
    dsimp only at htr
    by_cases hzero :
        pids0.length + (handles0.filter (env.handleRun 0)).length = 0
    · rw [if_pos hzero] at htr
      injection htr with htr
      subst htr
      have hl1 : pids0.length = 0 := by omega
      have hl2 : (handles0.filter (env.handleRun 0)).length = 0 := by omega
      have hp0 : pids0 = [] := List.length_eq_zero.mp hl1
      have hh0 : handles0.filter (env.handleRun 0) = [] := List.length_eq_zero.mp hl2
      have hpfhf : pidsF = [] ∧ handlesF = [] := by
        rw [hp0, hh0, pollLoop_nil_nil] at hpoll
        injection hpoll with hpoll
        injection hpoll with _ hpoll
        injection hpoll with hpf hpoll
        injection hpoll with hhf _
        exact ⟨hpf.symm, hhf.symm⟩
      refine ⟨?_, ?_, ?_, ?_, ?_, ?_⟩
      · intro p hp; rw [hp0] at hp; cases hp
      · intro q hq; rw [hh0] at hq; cases hq
      · intro p hp; rw [hpfhf.1] at hp; cases hp
      · intro q hq; rw [hpfhf.2] at hq; cases hq
      · intro _ q hq; rw [hpfhf.2] at hq; cases hq
      · intro l1 l2 e hEq _ x hx
        cases l1 <;> cases hEq
    · rw [if_pos rfl, if_neg hzero] at htr
      rw [hpoll] at htr
      dsimp only at htr
      injection htr with htr
      subst htr
      have hsleep : ∀ e ∈ sleepEvs, e = TEv.sleep :=
        pollLoop_sleeps cwd cmds env env.maxPolls 0 pids0
          (handles0.filter (env.handleRun 0)) rf pidsF handlesF sleepEvs hpoll
      have htermNoKill : ∀ x ∈ pids0.map (fun p => TEv.sigterm p (env.pidAlive 0 p)) ++
          (handles0.filter (env.handleRun 0)).map TEv.sigtermHandle, isKillEv x = false := by
        intro x hx
        rcases List.mem_append.mp hx with hx | hx
        · obtain ⟨q, _, rfl⟩ := List.mem_map.mp hx; rfl
        · obtain ⟨q, _, rfl⟩ := List.mem_map.mp hx; rfl
      have hsleepNoKill : ∀ x ∈ sleepEvs, isKillEv x = false := fun x hx => by
        rw [hsleep x hx]; rfl
      have hkillAll : ∀ x ∈ (if pidsF.length + handlesF.length = 0 then ([] : List TEv)
          else pidsF.map (fun p => TEv.sigkill p (env.pidAlive (rf + 1) p)) ++
            handlesF.map TEv.sigkillHandle), isKillEv x = true := by
        intro x hx
        split at hx
        · cases hx
        · rcases List.mem_append.mp hx with hx | hx
          · obtain ⟨q, _, rfl⟩ := List.mem_map.mp hx; rfl
          · obtain ⟨q, _, rfl⟩ := List.mem_map.mp hx; rfl
      have hneF : ∀ q, q ∈ handlesF → ¬ (pidsF.length + handlesF.length = 0) := by
        intro q hq h0
        have : handlesF = [] := List.length_eq_zero.mp (by omega)
        rw [this] at hq
        cases hq
      refine ⟨?_, ?_, ?_, ?_, ?_, ?_⟩
      · intro p hp
        exact List.mem_append_left _ (List.mem_append_left _
          (List.mem_append_left _ (List.mem_map.mpr ⟨p, hp, rfl⟩)))
      · intro q hq
        exact List.mem_append_left _ (List.mem_append_left _
          (List.mem_append_right _ (List.mem_map.mpr ⟨q, hq, rfl⟩)))
      · intro p hp
        have hne : ¬ (pidsF.length + handlesF.length = 0) := by
          intro h0
          cases pidsF with
          | nil => cases hp
          | cons a l => simp at h0
        have hNodupF : pidsF.Nodup :=
          pollLoop_nodup cwd cmds env env.maxPolls 0 pids0
            (handles0.filter (env.handleRun 0)) rf pidsF handlesF sleepEvs hpoll
            (get_process_pids_nodup hget)
        constructor
        · have z1 : (pids0.map (fun q => TEv.sigterm q (env.pidAlive 0 q))).countP
              (isKillOf p) = 0 := countP_killOf_zero p (by
            intro e he; obtain ⟨q, _, rfl⟩ := List.mem_map.mp he; rfl)
          have z2 : (((handles0.filter (env.handleRun 0)).map
              TEv.sigtermHandle).countP (isKillOf p)) = 0 := countP_killOf_zero p (by
            intro e he; obtain ⟨q, _, rfl⟩ := List.mem_map.mp he; rfl)
          have z3 : sleepEvs.countP (isKillOf p) = 0 :=
            countP_killOf_zero p (fun e he => by rw [hsleep e he]; rfl)
          have z4 : ((handlesF.map TEv.sigkillHandle).countP (isKillOf p)) = 0 :=
            countP_killOf_zero p (by
              intro e he; obtain ⟨q, _, rfl⟩ := List.mem_map.mp he; rfl)
          rw [if_neg hne]
          simp only [List.countP_append]
          rw [z1, z2, z3, z4,
            countP_killOf_map (fun q => env.pidAlive (rf + 1) q) p pidsF hNodupF,
            if_pos hp]
        · refine List.mem_append_right _ ?_
          rw [if_neg hne]
          exact List.mem_append_left _ (List.mem_map.mpr ⟨p, hp, rfl⟩)
      · intro q hq
        refine List.mem_append_right _ ?_
        rw [if_neg (hneF q hq)]
        exact List.mem_append_right _ (List.mem_map.mpr ⟨q, hq, rfl⟩)
      · intro hnd q hq
        have hNodupHF : handlesF.Nodup :=
          pollLoop_handles_nodup cwd cmds env env.maxPolls 0 pids0
            (handles0.filter (env.handleRun 0)) rf pidsF handlesF sleepEvs hpoll
            (hnd.filter _)
        have z1 : (pids0.map (fun p => TEv.sigterm p (env.pidAlive 0 p))).countP
            (isKillHandleOf q) = 0 := countP_eq_zero_of_false (by
          intro e he; obtain ⟨x, _, rfl⟩ := List.mem_map.mp he; rfl)
        have z2 : (((handles0.filter (env.handleRun 0)).map
            TEv.sigtermHandle).countP (isKillHandleOf q)) = 0 :=
          countP_eq_zero_of_false (by
            intro e he; obtain ⟨x, _, rfl⟩ := List.mem_map.mp he; rfl)
        have z3 : sleepEvs.countP (isKillHandleOf q) = 0 :=
          countP_eq_zero_of_false (fun e he => by rw [hsleep e he]; rfl)
        have z4 : ((pidsF.map (fun p => TEv.sigkill p (env.pidAlive (rf + 1) p))).countP
            (isKillHandleOf q)) = 0 := countP_eq_zero_of_false (by
          intro e he; obtain ⟨x, _, rfl⟩ := List.mem_map.mp he; rfl)
        rw [if_neg (hneF q hq)]
        simp only [List.countP_append]
        rw [z1, z2, z3, z4, countP_killHandleOf_map q handlesF hNodupHF, if_pos hq]
      · intro l1 l2 e hEq he x hx
        exact kills_form_suffix
          (A := (pids0.map (fun p => TEv.sigterm p (env.pidAlive 0 p)) ++
            (handles0.filter (env.handleRun 0)).map TEv.sigtermHandle) ++ sleepEvs)
          (fun y hy => by
            rcases List.mem_append.mp hy with hy | hy
            · exact htermNoKill y hy
            · exact hsleepNoKill y hy) hkillAll hEq he x hx
  · intro cwd cmds env handles0 pids0 tr hget htr
    unfold term_processes at htr
    rw [hget] at htr
    dsimp only at htr
    by_cases hzero :
        pids0.length + (handles0.filter (env.handleRun 0)).length = 0
    · rw [if_pos hzero] at htr
      injection htr with htr
      subst htr
      have hp0 : pids0 = [] := List.length_eq_zero.mp (by omega)
      have hh0 : handles0.filter (env.handleRun 0) = [] :=
        List.length_eq_zero.mp (by omega)
      refine ⟨by simp, ?_, ?_, ?_, ?_⟩
      · intro p hp; rw [hp0] at hp; cases hp
      · intro q hq; rw [hh0] at hq; cases hq
      · intro _ q hq; rw [hh0] at hq; cases hq
      · intro l1 l2 e hEq _ x hx
        cases l1 <;> cases hEq
    · rw [if_neg hzero] at htr
      simp only [Bool.false_eq_true, if_false] at htr
      injection htr with htr
      subst htr
      have hallKill : ∀ x ∈ pids0.map (fun p => TEv.sigkill p (env.pidAlive 1 p)) ++
          (handles0.filter (env.handleRun 0)).map TEv.sigkillHandle,
          isKillEv x = true := by
        intro x hx
        rcases List.mem_append.mp hx with hx | hx
        · obtain ⟨q, _, rfl⟩ := List.mem_map.mp hx; rfl
        · obtain ⟨q, _, rfl⟩ := List.mem_map.mp hx; rfl
      refine ⟨?_, ?_, ?_, ?_, ?_⟩
      · intro hmem
        have := hallKill _ hmem
        cases this
      · intro p hp
        constructor
        · rw [List.countP_append,
            countP_killOf_map (fun q => env.pidAlive 1 q) p pids0 (get_process_pids_nodup hget),
            if_pos hp, countP_killOf_zero p (by
              intro e he
              obtain ⟨q, _, rfl⟩ := List.mem_map.mp he
              rfl)]
        · exact List.mem_append_left _ (List.mem_map.mpr ⟨p, hp, rfl⟩)
      · intro q hq
        exact List.mem_append_right _ (List.mem_map.mpr ⟨q, hq, rfl⟩)
      · intro hnd q hq
        have z1 : ((pids0.map (fun p => TEv.sigkill p (env.pidAlive 1 p))).countP
            (isKillHandleOf q)) = 0 := countP_eq_zero_of_false (by
          intro e he; obtain ⟨x, _, rfl⟩ := List.mem_map.mp he; rfl)
        rw [List.countP_append, z1,
          countP_killHandleOf_map q (handles0.filter (env.handleRun 0)) (hnd.filter _),
          if_pos hq]
      · intro l1 l2 e hEq he x hx
        have hEq2 : ([] : List TEv) ++ (pids0.map (fun p => TEv.sigkill p (env.pidAlive 1 p)) ++
            (handles0.filter (env.handleRun 0)).map TEv.sigkillHandle) = l1 ++ e :: l2 := by
          simpa using hEq
        exact kills_form_suffix (A := []) (fun y hy => by cases hy) hallKill hEq2 he x hx

theorem termination_kill_phase_witness :
    term_processes (str "/") [str "w"] true [7]
      ⟨fun _ => [⟨5, str "w", [], str "running", false⟩], fun _ _ => true,
        fun _ _ => true, 1⟩ =
      some [TEv.sigterm 5 true, TEv.sigtermHandle 7, TEv.sleep,
        TEv.sigkill 5 true, TEv.sigkillHandle 7] ∧
    (∀ p ∈ ([5] : List Nat),
      [TEv.sigterm 5 true, TEv.sigtermHandle 7, TEv.sleep,
        TEv.sigkill 5 true, TEv.sigkillHandle 7].countP (isKillOf p) = 1 ∧
      TEv.sigkill p true ∈ [TEv.sigterm 5 true, TEv.sigtermHandle 7, TEv.sleep,
        TEv.sigkill 5 true, TEv.sigkillHandle 7]) ∧
    (∀ q ∈ ([7] : List Nat),
      TEv.sigkillHandle q ∈ [TEv.sigterm 5 true, TEv.sigtermHandle 7, TEv.sleep,
        TEv.sigkill 5 true, TEv.sigkillHandle 7]) ∧
    (∀ q ∈ ([7] : List Nat),
      [TEv.sigterm 5 true, TEv.sigtermHandle 7, TEv.sleep,
        TEv.sigkill 5 true, TEv.sigkillHandle 7].countP (isKillHandleOf q) = 1) := by
  have h := termination_kill_phase.1 (str "/") [str "w"]
    ⟨fun _ => [⟨5, str "w", [], str "running", false⟩], fun _ _ => true,
      fun _ _ => true, 1⟩
    [7] [5] 1 [5] [7] [TEv.sleep]
    [TEv.sigterm 5 true, TEv.sigtermHandle 7, TEv.sleep,
      TEv.sigkill 5 true, TEv.sigkillHandle 7]
    (by decide) (by decide) (by decide)
  exact ⟨by decide, h.2.2.1, h.2.2.2.1, h.2.2.2.2.1 (by decide)⟩

theorem pOpenSpawn_shape {c : Str} (h : spawnOk c = true) (env : RunEnv)
    (st : RunState) (fullCmd : Str) (user : Option Str) :
    ∃ sh st', pOpenSpawn env st fullCmd user c =
      POpen.ok (REv.spawned fullCmd user sh st.nextPid) st' := by
  unfold spawnOk at h
  unfold pOpenSpawn
  by_cases hp : '|' ∈ c
  · rw [if_pos hp]
    exact ⟨true, _, rfl⟩
  · rw [if_neg hp] at h ⊢
    rcases hsh : shlexSplit c with _ | l
    · rw [hsh] at h
      exact absurd h (by decide)
    · rw [hsh] at h
      cases l with
      | nil => exact absurd h (by decide)
      | cons x xs => exact ⟨false, _, rfl⟩

theorem pOpen_ok_shape {username cmd : Str} (h : pOpenOk username cmd = true)
    (env : RunEnv) (st : RunState) :
    ∃ user sh st', pOpen username env st cmd =
      POpen.ok (REv.spawned cmd user sh st.nextPid) st' := by
  unfold pOpenOk at h
  unfold pOpen
  rcases hs : split_user_and_commandline cmd with ⟨u, c⟩
  rw [hs] at h
  cases u with
  | some u =>
    dsimp only at h ⊢
    by_cases hauth : username ≠ str "root" ∧ username ≠ u
    · rw [if_pos hauth] at h; cases h
    · rw [if_neg hauth] at h ⊢
      obtain ⟨sh, st', hsp⟩ := pOpenSpawn_shape h env st cmd (some u)
      exact ⟨some u, sh, st', hsp⟩
  | none =>
    dsimp only at h ⊢
    obtain ⟨sh, st', hsp⟩ := pOpenSpawn_shape h env st cmd none
    exact ⟨none, sh, st', hsp⟩

theorem runPhase1_auth_abort {username bad u c : Str}
    (hsplit : split_user_and_commandline bad = (some u, c))
    (hroot : username ≠ str "root") (huser : username ≠ u) :
    ∀ (pre : List Str), (∀ p ∈ pre, pOpenOk username p = true) →
    ∀ (post : List Str) (env : RunEnv) (st : RunState),
      ∃ evs, runPhase1 username env (pre ++ bad :: post) st =
          LoopRes.fail evs (RunOutcome.authError u) ∧
        evs.map spawnCmd = pre ∧ ∀ e ∈ evs, isSpawnEv e = true := by
  intro pre
  induction pre with
  | nil =>
    intro _ post env st
    refine ⟨[], ?_, rfl, fun e he => absurd he (List.not_mem_nil e)⟩
    simp only [List.nil_append]
    unfold runPhase1
    unfold pOpen
    rw [hsplit]
    dsimp only
    rw [if_pos ⟨hroot, huser⟩]
  | cons p pre ih =>
    intro hok post env st
    obtain ⟨user, sh, st', hp⟩ :=
      pOpen_ok_shape (hok p (List.mem_cons_self p pre)) env st
    obtain ⟨evs, heq, hmap, hall⟩ :=
      ih (fun q hq => hok q (List.mem_cons_of_mem p hq)) post env st'
    refine ⟨REv.spawned p user sh st.nextPid :: evs, ?_, ?_, ?_⟩
    · simp only [List.cons_append]
      unfold runPhase1
      rw [hp]
      dsimp only
      rw [heq]
    · simp only [List.map_cons, hmap, spawnCmd]
    · intro e he
      rcases List.mem_cons.mp he with rfl | he
      · rfl
      · exact hall e he

/-- C5 counterexample: with caller `bob`, the run list
`["ok", "§USER=alice§bad"]` makes the orchestrator spawn `ok` first and
only then abort with the authorization error for `alice` — the failure
does not precede all side effects (the terminate-and-run termination has
already run and a process has already been spawned), refuting the claim
as stated. -/
theorem auth_error_counterexample :
    run_processes_in_background (str "/") (str "bob") ⟨[], fun _ _ t => t⟩
      [str "ok", str "§USER=alice§bad"] [] [] =
      ([REv.termCall [] (some SIGTERM_TIMEOUT),
        REv.spawned (str "ok") none false 2], RunOutcome.authError (str "alice")) ∧
    REv.spawned (str "ok") none false 2 ∈
      (run_processes_in_background (str "/") (str "bob") ⟨[], fun _ _ t => t⟩
        [str "ok", str "§USER=alice§bad"] [] []).1 := by
  constructor
  · decide
  · decide

/-- C5 (amended): a CommandSpec naming user `u`, processed by a caller who
is neither root nor `u`, makes the whole startup abort with a fatal
authorization error at that entry: the outcome is the authorization error
(non-zero exit, no handles returned) and no later entry is processed; but
the failure does not precede all side effects — the terminate-and-run
termination has already run, and exactly the entries before the offending
one have already been spawned. -/
theorem auth_error_fatal_at_entry (cwd username : Str) (env : RunEnv)
    (pre post ro tnr : List Str) (bad u c : Str)
    (hsplit : split_user_and_commandline bad = (some u, c))
    (hroot : username ≠ str "root") (huser : username ≠ u)
    (hok : ∀ p ∈ pre, pOpenOk username p = true) :
    (run_processes_in_background cwd username env (pre ++ bad :: post) ro tnr).2 =
      RunOutcome.authError u ∧
    ((run_processes_in_background cwd username env (pre ++ bad :: post) ro tnr).1.filter
      isSpawnEv).map spawnCmd = pre := by
  obtain ⟨evs, heq, hmap, hall⟩ :=
    runPhase1_auth_abort hsplit hroot huser pre hok post env ⟨env.afterTerm, [], 2⟩
  unfold run_processes_in_background
  dsimp only
  rw [heq]
  dsimp only
  refine ⟨rfl, ?_⟩
  have hfilter : evs.filter isSpawnEv = evs :=
    List.filter_eq_self.mpr (fun e he => hall e he)
  simp only [List.filter_cons]
  rw [show isSpawnEv (REv.termCall tnr (some SIGTERM_TIMEOUT)) = false from rfl]
  simp only [Bool.false_eq_true, if_false, hfilter, hmap]

theorem auth_error_fatal_at_entry_witness :
    (run_processes_in_background (str "/") (str "bob") ⟨[], fun _ _ t => t⟩
      ([str "ok"] ++ str "§USER=alice§bad" :: [str "never"]) [] []).2 =
      RunOutcome.authError (str "alice") ∧
    ((run_processes_in_background (str "/") (str "bob") ⟨[], fun _ _ t => t⟩
      ([str "ok"] ++ str "§USER=alice§bad" :: [str "never"]) [] []).1.filter
      isSpawnEv).map spawnCmd = [str "ok"] :=
  auth_error_fatal_at_entry (str "/") (str "bob") ⟨[], fun _ _ t => t⟩
    [str "ok"] [str "never"] [] [] (str "§USER=alice§bad") (str "alice") (str "bad")
    (by decide) (by decide) (by decide) (by decide)

/-- C1 counterexample: a terminate-and-run entry whose matches survive the
termination call is *not* spawned: with a `worker` process still live in
the post-termination table, the orchestrator emits only the termination
call and an "already runs" skip for the entry — no spawn event — refuting
the claim that the spawn happens unconditionally. -/
theorem tnr_not_unconditional_counterexample :
    get_process_pids (str "/") [str "worker"]
      [⟨5, str "worker", [str "worker"], str "running", false⟩] none = some [5] ∧
    run_processes_in_background (str "/") (str "root")
      ⟨[⟨5, str "worker", [str "worker"], str "running", false⟩], fun _ _ t => t⟩
      [] [] [str "worker"] =
      ([REv.termCall [str "worker"] (some SIGTERM_TIMEOUT), REv.skipped (str "worker")],
        RunOutcome.ok []) ∧
    (run_processes_in_background (str "/") (str "root")
      ⟨[⟨5, str "worker", [str "worker"], str "running", false⟩], fun _ _ t => t⟩
      [] [] [str "worker"]).1.all (fun e => !(isSpawnEv e)) = true := by
  refine ⟨by decide, by decide, by decide⟩

theorem runPhase1_fail_out (username : Str) (env : RunEnv) :
    ∀ (cmds : List Str) (st : RunState) (evs : List REv) (out : RunOutcome),
      runPhase1 username env cmds st = LoopRes.fail evs out →
      ∀ hs : List Nat, out ≠ RunOutcome.ok hs := by
  intro cmds
  induction cmds with
  | nil =>
    intro st evs out h hs
    exact LoopRes.noConfusion h
  | cons cmd rest ih =>
    intro st evs out h hs
    unfold runPhase1 at h
    cases hp : pOpen username env st cmd with
    | authError u =>
      rw [hp] at h
      dsimp only at h
      injection h with _ h2
      rw [← h2]
      exact fun hx => RunOutcome.noConfusion hx
    | exn =>
      rw [hp] at h
      dsimp only at h
      injection h with _ h2
      rw [← h2]
      exact fun hx => RunOutcome.noConfusion hx
    | ok ev st2 =>
      rw [hp] at h
      dsimp only at h
      cases hr : runPhase1 username env rest st2 with
      | ok st3 evs3 =>
        rw [hr] at h
        exact LoopRes.noConfusion h
      | fail evs3 out3 =>
        rw [hr] at h
        dsimp only at h
        injection h with _ h2
        rw [← h2]
        exact ih st2 evs3 out3 hr hs

theorem runPhase2_fail_out (cwd username : Str) (env : RunEnv) :
    ∀ (cmds : List Str) (st : RunState) (evs : List REv) (out : RunOutcome),
      runPhase2 cwd username env cmds st = LoopRes.fail evs out →
      ∀ hs : List Nat, out ≠ RunOutcome.ok hs := by
  intro cmds
  induction cmds with
  | nil =>
    intro st evs out h hs
    exact LoopRes.noConfusion h
  | cons cmd rest ih =>
    intro st evs out h hs
    unfold runPhase2 at h
    cases hg : get_process_pids cwd [cmd] st.table none with
    | none =>
      rw [hg] at h
      dsimp only at h
      injection h with _ h2
      rw [← h2]
      exact fun hx => RunOutcome.noConfusion hx
    | some pids =>
      rw [hg] at h
      cases pids with
      | cons p ps =>
        dsimp only at h
        cases hr : runPhase2 cwd username env rest st with
        | ok st3 evs3 =>
          rw [hr] at h
          exact LoopRes.noConfusion h
        | fail evs3 out3 =>
          rw [hr] at h
          dsimp only at h
          injection h with _ h2
          rw [← h2]
          exact ih st evs3 out3 hr hs
      | nil =>
        dsimp only at h
        cases hp : pOpen username env st cmd with
        | authError u =>
          rw [hp] at h
          dsimp only at h
          injection h with _ h2
          rw [← h2]
          exact fun hx => RunOutcome.noConfusion hx
        | exn =>
          rw [hp] at h
          dsimp only at h
          injection h with _ h2
          rw [← h2]
          exact fun hx => RunOutcome.noConfusion hx
        | ok ev st2 =>
          rw [hp] at h
          dsimp only at h
          cases hr : runPhase2 cwd username env rest st2 with
          | ok st3 evs3 =>
            rw [hr] at h
            exact LoopRes.noConfusion h
          | fail evs3 out3 =>
            rw [hr] at h
            dsimp only at h
            injection h with _ h2
            rw [← h2]
            exact ih st2 evs3 out3 hr hs

theorem runPhase2_policy (cwd username : Str) (env : RunEnv) :
    ∀ (cmds : List Str) (st stEnd : RunState) (evs : List REv),
      runPhase2 cwd username env cmds st = LoopRes.ok stEnd evs →
      RunOncePolicy cwd username env cmds st evs stEnd := by
  intro cmds
  induction cmds with
  | nil =>
    intro st stEnd evs h
    injection h with h1 h2
    rw [← h1, ← h2]
    exact RunOncePolicy.nil st
  | cons cmd rest ih =>
    intro st stEnd evs h
    unfold runPhase2 at h
    cases hg : get_process_pids cwd [cmd] st.table none with
    | none =>
      rw [hg] at h
      dsimp only at h
      exact LoopRes.noConfusion h
    | some pids =>
      rw [hg] at h
      cases pids with
      | cons p ps =>
        dsimp only at h
        cases hr : runPhase2 cwd username env rest st with
        | fail evs2 out2 =>
          rw [hr] at h
          dsimp only at h
          exact LoopRes.noConfusion h
        | ok st2 evs2 =>
          rw [hr] at h
          dsimp only at h
          injection h with h1 h2
          rw [← h1, ← h2]
          exact RunOncePolicy.skip p ps hg (ih st st2 evs2 hr)
      | nil =>
        dsimp only at h
        cases hp : pOpen username env st cmd with
        | authError u =>
          rw [hp] at h
          dsimp only at h
          exact LoopRes.noConfusion h
        | exn =>
          rw [hp] at h
          dsimp only at h
          exact LoopRes.noConfusion h
        | ok ev stNext =>
          rw [hp] at h
          dsimp only at h
          cases hr : runPhase2 cwd username env rest stNext with
          | fail evs2 out2 =>
            rw [hr] at h
            dsimp only at h
            exact LoopRes.noConfusion h
          | ok st2 evs2 =>
            rw [hr] at h
            dsimp only at h
            injection h with h1 h2
            rw [← h1, ← h2]
            exact RunOncePolicy.spawn hg hp (ih stNext st2 evs2 hr)

theorem runOncePolicy_append (cwd username : Str) (env : RunEnv) :
    ∀ (l1 l2 : List Str) (st stEnd : RunState) (evs : List REv),
      RunOncePolicy cwd username env (l1 ++ l2) st evs stEnd →
      ∃ evs1 stMid evs2, evs = evs1 ++ evs2 ∧
        RunOncePolicy cwd username env l1 st evs1 stMid ∧
        RunOncePolicy cwd username env l2 stMid evs2 stEnd := by
  intro l1
  induction l1 with
  | nil =>
    intro l2 st stEnd evs h
    exact ⟨[], st, evs, rfl, RunOncePolicy.nil st, h⟩
  | cons c l1 ih =>
    intro l2 st stEnd evs h
    rw [List.cons_append] at h
    cases h with
    | @skip _ _ _ _ evsTail p ps hg htail =>
      obtain ⟨evs1, stMid, evs2, heq, h1, h2⟩ := ih l2 st stEnd evsTail htail
      refine ⟨REv.skipped c :: evs1, stMid, evs2, ?_, RunOncePolicy.skip p ps hg h1, h2⟩
      rw [heq, List.cons_append]
    | @spawn _ _ _ stNext _ ev evsTail hg hp htail =>
      obtain ⟨evs1, stMid, evs2, heq, h1, h2⟩ := ih l2 stNext stEnd evsTail htail
      refine ⟨ev :: evs1, stMid, evs2, ?_, RunOncePolicy.spawn hg hp h1, h2⟩
      rw [heq, List.cons_append]

/-- C1 (amended): the orchestrator first runs the Termination Controller
against the whole terminate-and-run category with the fixed graceful
timeout (the termination call is always the first event, for arbitrary
categories); it then treats the category like run-once: every successful
run of the conditional loop refines the `RunOncePolicy` relation, so for
every entry of `run_once` and of `terminate_and_run` — arbitrary lists —
the entry is skipped with an "already runs" outcome when the Process
Inventory reports live matches at its turn, and a fresh process is spawned
for it only when no live matches exist. -/
theorem tnr_term_first_then_conditional :
    (∀ (cwd username : Str) (env : RunEnv) (run ro tnr : List Str),
      (run_processes_in_background cwd username env run ro tnr).1.head? =
        some (REv.termCall tnr (some SIGTERM_TIMEOUT))) ∧
    (∀ (cwd username : Str) (env : RunEnv) (cmds : List Str) (st stEnd : RunState)
        (evs : List REv),
      runPhase2 cwd username env cmds st = LoopRes.ok stEnd evs →
      RunOncePolicy cwd username env cmds st evs stEnd) ∧
    (∀ (cwd username : Str) (env : RunEnv) (run ro tnr : List Str)
        (evs : List REv) (handles : List Nat),
      run_processes_in_background cwd username env run ro tnr =
        (evs, RunOutcome.ok handles) →
      ∃ st1 evs1 evsRo stMid evsTnr st2,
        runPhase1 username env run ⟨env.afterTerm, [], 2⟩ = LoopRes.ok st1 evs1 ∧
        RunOncePolicy cwd username env ro st1 evsRo stMid ∧
        RunOncePolicy cwd username env tnr stMid evsTnr st2 ∧
        evs = REv.termCall tnr (some SIGTERM_TIMEOUT) :: (evs1 ++ (evsRo ++ evsTnr)) ∧
        handles = st2.handles) := by
  refine ⟨?_, runPhase2_policy, ?_⟩
  · intro cwd username env run ro tnr
    unfold run_processes_in_background
    dsimp only
    cases runPhase1 username env run ⟨env.afterTerm, [], 2⟩ with
    | fail evs out => rfl
    | ok st1 evs1 =>
      dsimp only
      cases runPhase2 cwd username env (ro ++ tnr) st1 with
      | fail evs2 out => rfl
      | ok st2 evs2 => rfl
  · intro cwd username env run ro tnr evs handles h
    unfold run_processes_in_background at h
    dsimp only at h
    cases h1 : runPhase1 username env run ⟨env.afterTerm, [], 2⟩ with
    | fail evs1 out =>
      rw [h1] at h
      dsimp only at h
      rw [Prod.mk.injEq] at h
      exact absurd h.2 (runPhase1_fail_out username env run _ evs1 out h1 handles)
    | ok st1 evs1 =>
      rw [h1] at h
      dsimp only at h
      cases h2 : runPhase2 cwd username env (ro ++ tnr) st1 with
      | fail evs2 out =>
        rw [h2] at h
        dsimp only at h
        rw [Prod.mk.injEq] at h
        exact absurd h.2 (runPhase2_fail_out cwd username env (ro ++ tnr) st1 evs2 out h2 handles)
      | ok st2 evs2 =>
        rw [h2] at h
        dsimp only at h
        rw [Prod.mk.injEq] at h
        obtain ⟨hEvs, hOut⟩ := h
        obtain ⟨evsRo, stMid, evsTnr, hsplit, hro, htnr⟩ :=
          runOncePolicy_append cwd username env ro tnr st1 st2 evs2
            (runPhase2_policy cwd username env (ro ++ tnr) st1 st2 evs2 h2)
        refine ⟨st1, evs1, evsRo, stMid, evsTnr, st2, rfl, hro, htnr, ?_, ?_⟩
        · rw [← hEvs, hsplit]
        · injection hOut with hOut
          exact hOut.symm

theorem tnr_term_first_then_conditional_witness :
    run_processes_in_background (str "/") (str "root")
      ⟨[⟨5, str "worker", [str "worker"], str "running", false⟩], fun _ _ t => t⟩
      [] [] [str "worker"] =
      ([REv.termCall [str "worker"] (some SIGTERM_TIMEOUT), REv.skipped (str "worker")],
        RunOutcome.ok []) ∧
    ∃ st1 evs1 evsRo stMid evsTnr st2,
      runPhase1 (str "root")
        ⟨[⟨5, str "worker", [str "worker"], str "running", false⟩], fun _ _ t => t⟩
        [] ⟨[⟨5, str "worker", [str "worker"], str "running", false⟩], [], 2⟩ =
        LoopRes.ok st1 evs1 ∧
      RunOncePolicy (str "/") (str "root")
        ⟨[⟨5, str "worker", [str "worker"], str "running", false⟩], fun _ _ t => t⟩
        [] st1 evsRo stMid ∧
      RunOncePolicy (str "/") (str "root")
        ⟨[⟨5, str "worker", [str "worker"], str "running", false⟩], fun _ _ t => t⟩
        [str "worker"] stMid evsTnr st2 ∧
      [REv.termCall [str "worker"] (some SIGTERM_TIMEOUT), REv.skipped (str "worker")] =
        REv.termCall [str "worker"] (some SIGTERM_TIMEOUT) :: (evs1 ++ (evsRo ++ evsTnr)) ∧
      ([] : List Nat) = st2.handles :=
  ⟨by decide,
    tnr_term_first_then_conditional.2.2 (str "/") (str "root")
      ⟨[⟨5, str "worker", [str "worker"], str "running", false⟩], fun _ _ t => t⟩
      [] [] [str "worker"]
      [REv.termCall [str "worker"] (some SIGTERM_TIMEOUT), REv.skipped (str "worker")]
      [] (by decide)⟩

end AppHub
